import Mathlib

/-!
The program simple-classifier: a shallow embedding of `classifier.c`.

Modelling conventions, fixed once for the whole development.

* A C `char` is modelled by its integer value (`Int`).  A text buffer
  (`const char *`) is a `List Int`; the length the caller passes next to it is a
  separate `Int`, exactly as in the C signatures.  Reading the buffer past its
  end makes the function return `none`.  Where `char` is a signed type (the x86
  and x86-64 targets of the build line `clang -std=gnu99 ...`) the values are
  those of `is_char`, and a byte `b ≥ 128` of a text is the value `b - 256`.
  The general theorems hold for every integer value.
* `int` values (the alphabet width, lengths, loop counters, counters in the
  count tables) are modelled by `Int`; arithmetic on them is not wrapped: a
  counter would need 2^31 increments to overflow, and an index `x*W + y` formed
  from two `char` values and the width of an allocated table stays far from
  the bounds of `int`.  The function `index_2d` on its own is also given as the
  machine computes it, in 32-bit `int` arithmetic (`index_2d_int`); the two
  agree on every table whose number of cells `W*W` fits in an `int`.
* `float` values are modelled by `ℚ`: every operation is carried out in exact
  arithmetic.  A division whose divisor is zero has no value in exact
  arithmetic (the machine produces a NaN or an infinity); the function that
  performs it then returns `none`.
* The four tables of a classifier are lists.  An array access outside the
  table (undefined behaviour in C) makes the function return `none`.
* A `for (int i = 0; i < n; ++i)` loop is a monadic left fold over
  `List.range n.toNat`; the body is the fold's step function.
-/

namespace Classifier

/-! ## Array accesses -/

/-- Reading `a[i]`: `none` when `i` is not an index of `a`. -/
def load {α : Type} (a : List α) (i : Int) : Option α :=
  if 0 ≤ i then a[i.toNat]? else none

/-- Writing `a[i] = v`: `none` when `i` is not an index of `a`. -/
def store {α : Type} (a : List α) (i : Int) (v : α) : Option (List α) :=
  if 0 ≤ i ∧ i.toNat < a.length then some (a.set i.toNat v) else none

/-- The statement `a[i] += 1` on a table of `int`. -/
def incr (a : List Int) (i : Int) : Option (List Int) :=
  (load a i).bind (fun v => store a i (v + 1))

/-- Division of two `float` values in exact arithmetic; no value when the
divisor is zero. -/
def fdiv (a b : ℚ) : Option ℚ :=
  if b = 0 then none else some (a / b)

/-! ## The program -/

/-- The struct `LanguageClassifier` of `classifier.h`. -/
structure LanguageClassifier where
  transition_frequencies : List ℚ
  character_frequencies : List ℚ
  transition_counts : List Int
  character_counts : List Int
  alphabet_width : Int

/-- Function `dumb_diff_matrices`, one iteration of its loop: index `i` is skipped
when either entry is `≤ 0`, otherwise `|a[i] - b[i]|` is added when positive. -/
def dumb_diff_step (a b : List ℚ) (diffsum : ℚ) (i : Nat) : Option ℚ :=
  (load a i).bind (fun ai =>
  (load b i).bind (fun bi =>
    if ai ≤ 0 ∨ bi ≤ 0 then some diffsum
    else if |ai - bi| > 0 then some (diffsum + |ai - bi|) else some diffsum))

/-- Function `dumb_diff_matrices(a, b, mlen)`. -/
def dumb_diff_matrices (a b : List ℚ) (mlen : Int) : Option ℚ :=
  (List.range mlen.toNat).foldlM (dumb_diff_step a b) 0

set_option linter.unusedVariables false in
/-- Function `index_2d(x, y, x_dim, y_dim)`: `x*y_dim + y`. -/
def index_2d (x y x_dim y_dim : Int) : Int :=
  x * y_dim + y

/-- Function `count_word_transitions`, one iteration of its loop, on the pair of
tables `(transition_counts, character_counts)`. -/
def count_step (word : List Int) (word_length alphabet_width : Int)
    (t : List Int × List Int) (i : Nat) : Option (List Int × List Int) :=
  (load word i).bind (fun x =>
  (load word (i + 1)).bind (fun y =>
    (if x < alphabet_width ∧ y < alphabet_width then
      (incr t.1 (index_2d x y alphabet_width alphabet_width)).bind (fun tc =>
      (incr t.2 x).bind (fun cc => some (tc, cc)))
    else some t).bind (fun t1 =>
    if (i : Int) = word_length - 2 then
      (incr t1.2 y).bind (fun cc => some (t1.1, cc))
    else some t1)))

/-- Function `count_word_transitions(word, word_length, alphabet_width,
&transition_counts, &character_counts)`; the result is the pair of updated
tables. -/
def count_word_transitions (word : List Int) (word_length alphabet_width : Int)
    (transition_counts character_counts : List Int) :
    Option (List Int × List Int) :=
  (List.range (word_length - 1).toNat).foldlM
    (count_step word word_length alphabet_width)
    (transition_counts, character_counts)

/-- The first inner loop of `convert_transition_counts_to_freqs`: the sum of
row `i` of `counts`, accumulated in a `float`. -/
def row_sum (counts : List Int) (alphabet_width : Int) (i : Nat) : Option ℚ :=
  (List.range alphabet_width.toNat).foldlM
    (fun (s : ℚ) (j : Nat) =>
      (load counts (index_2d i j alphabet_width alphabet_width)).bind
        (fun c => some (s + (c : ℚ))))
    0

/-- The second inner loop of `convert_transition_counts_to_freqs`, one
iteration: entry `(i, j)` is written only when the row sum is positive. -/
def freq_step (counts : List Int) (alphabet_width : Int) (i : Nat) (rs : ℚ)
    (freqs : List ℚ) (j : Nat) : Option (List ℚ) :=
  if rs > 0 then
    (load counts (index_2d i j alphabet_width alphabet_width)).bind (fun c =>
      store freqs (index_2d i j alphabet_width alphabet_width) ((c : ℚ) / rs))
  else some freqs

/-- The body of the outer loop of `convert_transition_counts_to_freqs`: row `i`. -/
def convert_row (counts : List Int) (alphabet_width : Int) (freqs : List ℚ)
    (i : Nat) : Option (List ℚ) :=
  (row_sum counts alphabet_width i).bind (fun rs =>
    (List.range alphabet_width.toNat).foldlM
      (freq_step counts alphabet_width i rs) freqs)

/-- Function `convert_transition_counts_to_freqs(counts, alphabet_width, &freqs)`;
the result is the updated table `freqs`. -/
def convert_transition_counts_to_freqs (counts : List Int) (alphabet_width : Int)
    (freqs : List ℚ) : Option (List ℚ) :=
  (List.range alphabet_width.toNat).foldlM
    (convert_row counts alphabet_width) freqs

/-- The first loop of `convert_character_counts_to_freqs`: the sum of all the
counts, accumulated in a `float`. -/
def character_sum (counts : List Int) (alphabet_width : Int) : Option ℚ :=
  (List.range alphabet_width.toNat).foldlM
    (fun (s : ℚ) (i : Nat) => (load counts i).bind (fun c => some (s + (c : ℚ))))
    0

/-- Function `convert_character_counts_to_freqs(counts, alphabet_width, &freqs)`;
the division `counts[i] / sum` is not guarded. -/
def convert_character_counts_to_freqs (counts : List Int) (alphabet_width : Int)
    (freqs : List ℚ) : Option (List ℚ) :=
  (character_sum counts alphabet_width).bind (fun sum =>
    (List.range alphabet_width.toNat).foldlM
      (fun (fr : List ℚ) (i : Nat) =>
        (load counts i).bind (fun c =>
        (fdiv (c : ℚ) sum).bind (fun q => store fr i q)))
      freqs)

/-- Function `build_classifier_from_line(line, read, ctx)`: the word handed to
`count_word_transitions` is the line without its last character. -/
def build_classifier_from_line (line : List Int) (read : Int)
    (c : LanguageClassifier) : Option LanguageClassifier :=
  (count_word_transitions line (read - 1) c.alphabet_width
      c.transition_counts c.character_counts).bind
    (fun t => some { c with transition_counts := t.1, character_counts := t.2 })

/-- Function `for_line_in_file`, with the file given as the list of its lines
(each line as `getline` returns it, terminator included, `read` its length).
The callbacks of this program always report success, so the loop never
breaks early. -/
def for_line_in_file {σ : Type} (lines : List (List Int))
    (callback : List Int → Int → σ → Option σ) (context : σ) : Option σ :=
  lines.foldlM (fun ctx line => callback line (line.length : Int) ctx) context

/-- The allocation part of `create_language_classifier`: four zero-filled
tables (`calloc`) of width `alphabet_width`. -/
def calloc_classifier (alphabet_width : Int) : LanguageClassifier :=
  { alphabet_width := alphabet_width
    transition_counts := List.replicate (alphabet_width * alphabet_width).toNat 0
    transition_frequencies := List.replicate (alphabet_width * alphabet_width).toNat 0
    character_counts := List.replicate alphabet_width.toNat 0
    character_frequencies := List.replicate alphabet_width.toNat 0 }

/-- The training part of `create_language_classifier`: every line of the words
file goes through `build_classifier_from_line`, starting from the zero-filled
tables. -/
def train (lines : List (List Int)) (alphabet_width : Int) :
    Option LanguageClassifier :=
  for_line_in_file lines build_classifier_from_line
    (calloc_classifier alphabet_width)

/-- Function `create_language_classifier(words_file, alphabet_width)`. -/
def create_language_classifier (lines : List (List Int)) (alphabet_width : Int) :
    Option LanguageClassifier :=
  (train lines alphabet_width).bind (fun c =>
  (convert_transition_counts_to_freqs c.transition_counts c.alphabet_width
      c.transition_frequencies).bind (fun tf =>
  (convert_character_counts_to_freqs c.character_counts c.alphabet_width
      c.character_frequencies).bind (fun cf =>
    some { c with transition_frequencies := tf, character_frequencies := cf })))

/-- Function `score_transitions`, one iteration of its loop. -/
def score_step (c : LanguageClassifier) (buf : List Int) (score : ℚ) (i : Nat) :
    Option ℚ :=
  (load buf i).bind (fun a =>
  (load buf (i + 1)).bind (fun b =>
    if a < c.alphabet_width ∧ b < c.alphabet_width then
      (load c.transition_frequencies
          (index_2d a b c.alphabet_width c.alphabet_width)).bind
        (fun f => some (score + 100 * f))
    else some score))

/-- Function `score_transitions(classifier, buf, buflen)`: the accumulated sum
divided by `buflen`, without a guard on `buflen`. -/
def score_transitions (c : LanguageClassifier) (buf : List Int) (buflen : Int) :
    Option ℚ :=
  ((List.range (buflen - 1).toNat).foldlM (score_step c buf) 0).bind
    (fun score => fdiv score (buflen : ℚ))

/-- The second loop of `score_frequencies`: `buf_freqs[(int) buf[i]] += 1.0 / buflen`. -/
def buf_freqs_step (buf : List Int) (buflen : Int) (buf_freqs : List ℚ) (i : Nat) :
    Option (List ℚ) :=
  (load buf i).bind (fun s =>
  (load buf_freqs s).bind (fun v =>
  (fdiv 1 (buflen : ℚ)).bind (fun q => store buf_freqs s (v + q))))

/-- Function `score_frequencies(classifier, buf, buflen)`. -/
def score_frequencies (c : LanguageClassifier) (buf : List Int) (buflen : Int) :
    Option ℚ :=
  ((List.range buflen.toNat).foldlM (buf_freqs_step buf buflen)
      (List.replicate c.alphabet_width.toNat (0 : ℚ))).bind
    (fun buf_freqs =>
      dumb_diff_matrices c.character_frequencies buf_freqs c.alphabet_width)

/-- Function `score_as_language_custom(classifier, buf, buflen, transition_weight,
frequency_weight)`. -/
def score_as_language_custom (c : LanguageClassifier) (buf : List Int)
    (buflen : Int) (transition_weight frequency_weight : ℚ) : Option ℚ :=
  (score_frequencies c buf buflen).bind (fun frequency_score =>
  (score_transitions c buf buflen).bind (fun transition_score =>
    some (frequency_score * frequency_weight +
          transition_score * transition_weight)))

/-- Function `score_as_language(classifier, buf, buflen)`. -/
def score_as_language (c : LanguageClassifier) (buf : List Int) (buflen : Int) :
    Option ℚ :=
  score_as_language_custom c buf buflen 1 1

/-! ## Specification-side counting functions -/

/-- Number of positions `i` with `0 ≤ i < word_length - 1`, `word[i] = x` and
`word[i+1] = y`. -/
def transitions (word : List Int) (word_length : Int) (x y : Int) : Nat :=
  (List.range (word_length - 1).toNat).countP
    (fun i => decide (word[i]? = some x ∧ word[i + 1]? = some y))

/-- Number of occurrences of the symbol `c` among the first `word_length`
symbols of `word`. -/
def occurrences (word : List Int) (word_length : Int) (c : Int) : Nat :=
  (word.take word_length.toNat).count c

/-- Every one of the first `word_length` symbols of `word` lies in
`[0, alphabet_width)`, and the buffer holds at least `word_length` symbols. -/
def in_alphabet (word : List Int) (word_length alphabet_width : Int) : Prop :=
  word_length ≤ (word.length : Int) ∧
  ∀ c ∈ word.take word_length.toNat, 0 ≤ c ∧ c < alphabet_width

instance (word : List Int) (word_length alphabet_width : Int) :
    Decidable (in_alphabet word word_length alphabet_width) := by
  unfold in_alphabet
  infer_instance

/-- Number of iterations of the loop of `count_word_transitions` whose pair of
symbols has the flat index `k`. -/
def pair_hits (word : List Int) (n W : Int) (k : Nat) : Nat :=
  (List.range (n - 1).toNat).countP (fun (i : Nat) => decide ((k : Int) =
    index_2d (word.getD i 0) (word.getD (i + 1) 0) W W))

/-- Number of increments of `character_counts[k]` made by the loop of
`count_word_transitions`: one for each first symbol of a pair, one for the
second symbol of the last pair. -/
def char_hits (word : List Int) (n : Int) (k : Nat) : Nat :=
  (List.range (n - 1).toNat).countP
      (fun (i : Nat) => decide ((k : Int) = word.getD i 0)) +
  (List.range (n - 1).toNat).countP
      (fun (i : Nat) => decide ((i : Int) = n - 2 ∧ (k : Int) = word.getD (i + 1) 0))

/-- The entry `a[i]` of a table as a number, `0` when `i` is not an index of `a`. -/
def entry {α : Type} [Zero α] (a : List α) (i : Int) : α :=
  (load a i).getD 0

/-- The transition score as the specification words it, before the division: the
sum, over the positions `i` with `0 ≤ i < n - 1` whose symbols `buf[i]` and
`buf[i+1]` both lie in `[0, W)`, of `100 * transition_frequencies[buf[i]][buf[i+1]]`. -/
def transition_sum (c : LanguageClassifier) (buf : List Int) (n : Int) : ℚ :=
  ∑ i ∈ (Finset.range (n - 1).toNat).filter (fun (i : Nat) =>
      (0 ≤ buf.getD i 0 ∧ buf.getD i 0 < c.alphabet_width) ∧
      (0 ≤ buf.getD (i + 1) 0 ∧ buf.getD (i + 1) 0 < c.alphabet_width)),
    100 * entry c.transition_frequencies
      (index_2d (buf.getD i 0) (buf.getD (i + 1) 0) c.alphabet_width c.alphabet_width)

/-- The values a `char` takes where the type is signed (the x86 and x86-64
targets): a byte `b ≥ 128` of a text is the `char` of value `b - 256`. -/
def is_char (v : Int) : Prop :=
  -128 ≤ v ∧ v ≤ 127

instance (v : Int) : Decidable (is_char v) := by
  unfold is_char
  infer_instance

/-- The unigram frequency of the symbol `i` in the first `n` symbols of `buf`:
its number of occurrences divided by `n`. -/
def buffer_frequency (buf : List Int) (n : Int) (i : Int) : ℚ :=
  (occurrences buf n i : ℚ) / (n : ℚ)

/-- The frequency score as the specification words it: the sum of
`|character_frequencies[i] - q[i]|` over exactly the indices `i` of `[0, W)` where
both `character_frequencies[i] > 0` and `q[i] > 0`, `q` the unigram frequencies
of the buffer. -/
def frequency_distance (c : LanguageClassifier) (buf : List Int) (n : Int) : ℚ :=
  ∑ i ∈ (Finset.range c.alphabet_width.toNat).filter (fun (i : Nat) =>
      0 < entry c.character_frequencies (i : Int) ∧
      0 < buffer_frequency buf n (i : Int)),
    |entry c.character_frequencies (i : Int) - buffer_frequency buf n (i : Int)|

/-- The `char` that holds the byte `b` of a text (`0 ≤ b ≤ 255`) where `char` is a
signed type: the bytes from 128 on are the negative values. -/
def char_of_byte (b : Nat) : Int :=
  if b < 128 then (b : Int) else (b : Int) - 256

/-! ## Loops and array accesses -/

theorem foldlM_range_inv {σ : Type} (f : σ → Nat → Option σ)
    (P : Nat → σ → Prop) (n : Nat) (s0 : σ) (h0 : P 0 s0)
    (hstep : ∀ k s, k < n → P k s → ∃ s', f s k = some s' ∧ P (k + 1) s') :
    ∃ s', (List.range n).foldlM f s0 = some s' ∧ P n s' := by
  induction n with
  | zero => exact ⟨s0, by simp, h0⟩
  | succ m ih =>
    obtain ⟨s1, h1, hP⟩ := ih (fun k s hk hp => hstep k s (Nat.lt_succ_of_lt hk) hp)
    obtain ⟨s2, h2, hP2⟩ := hstep m s1 (Nat.lt_succ_self m) hP
    refine ⟨s2, ?_, hP2⟩
    rw [List.range_succ, List.foldlM_append, h1]
    simp [h2]

theorem load_of_lt {α : Type} (a : List α) (d : α) (i : Int) (h0 : 0 ≤ i)
    (h1 : i < (a.length : Int)) : load a i = some (a.getD i.toNat d) := by
  have h2 : i.toNat < a.length := by omega
  simp [load, h0, List.getD_eq_getElem?_getD, List.getElem?_eq_getElem h2]

theorem load_natCast {α : Type} (a : List α) (d : α) (k : Nat)
    (h : k < a.length) : load a (k : Int) = some (a.getD k d) := by
  have := load_of_lt a d (k : Int) (by omega) (by omega)
  simpa using this

theorem load_eq_none {α : Type} (a : List α) (i : Int)
    (h : i < 0 ∨ (a.length : Int) ≤ i) : load a i = none := by
  unfold load
  split
  · apply List.getElem?_eq_none; omega
  · rfl

theorem store_of_lt {α : Type} (a : List α) (i : Int) (v : α) (h0 : 0 ≤ i)
    (h1 : i < (a.length : Int)) : store a i v = some (a.set i.toNat v) := by
  have h2 : i.toNat < a.length := by omega
  simp [store, h0, h2]

theorem getD_set {α : Type} (a : List α) (d v : α) (i k : Nat)
    (h : i < a.length) :
    (a.set i v).getD k d = if k = i then v else a.getD k d := by
  simp only [List.getD_eq_getElem?_getD, List.getElem?_set, h, if_true]
  by_cases hk : k = i
  · subst hk; simp
  · have : ¬ i = k := fun e => hk e.symm
    simp [hk, this]

theorem getD_replicate_zero {α : Type} [Zero α] (n k : Nat) :
    (List.replicate n (0 : α)).getD k 0 = 0 := by
  simp only [List.getD_eq_getElem?_getD, List.getElem?_replicate]
  split <;> rfl

theorem incr_spec (a : List Int) (i : Int) (h0 : 0 ≤ i)
    (h1 : i < (a.length : Int)) :
    ∃ a', incr a i = some a' ∧ a'.length = a.length ∧
      ∀ k : Nat, a'.getD k 0 = a.getD k 0 + if (k : Int) = i then 1 else 0 := by
  have h2 : i.toNat < a.length := by omega
  refine ⟨a.set i.toNat (a.getD i.toNat 0 + 1), ?_, by simp, ?_⟩
  · simp [incr, load_of_lt a 0 i h0 h1, store_of_lt a i _ h0 h1]
  · intro k
    rw [getD_set a 0 _ i.toNat k h2]
    by_cases hk : (k : Int) = i
    · have : k = i.toNat := by omega
      simp [hk, this, h0]
    · have : ¬ k = i.toNat := by omega
      simp [hk, this]

/-! ## Index arithmetic -/

theorem index_2d_nonneg (W x y : Int) (hx : 0 ≤ x) (hy : 0 ≤ y) (hW : 0 ≤ W) :
    0 ≤ index_2d x y W W := by
  unfold index_2d
  have := mul_nonneg hx hW
  omega

theorem index_2d_lt (W x y : Int) (hx : x < W) (hy : y < W) (hW : 0 ≤ W) :
    index_2d x y W W < W * W := by
  unfold index_2d
  have h : (x + 1) * W ≤ W * W := mul_le_mul_of_nonneg_right (by omega) hW
  have e : (x + 1) * W = x * W + W := by ring
  omega

theorem index_2d_inj (W x y x' y' : Int) (hy : 0 ≤ y) (hyW : y < W)
    (hy' : 0 ≤ y') (hyW' : y' < W)
    (h : index_2d x y W W = index_2d x' y' W W) : x = x' ∧ y = y' := by
  unfold index_2d at h
  have hW : 0 ≤ W := by omega
  rcases lt_trichotomy x x' with hlt | heq | hgt
  · exfalso
    have h1 : (x + 1) * W ≤ x' * W := mul_le_mul_of_nonneg_right (by omega) hW
    have e : (x + 1) * W = x * W + W := by ring
    omega
  · subst heq
    exact ⟨rfl, by omega⟩
  · exfalso
    have h1 : (x' + 1) * W ≤ x * W := mul_le_mul_of_nonneg_right (by omega) hW
    have e : (x' + 1) * W = x' * W + W := by ring
    omega

theorem in_alphabet_getD {word : List Int} {n W : Int} (hw : in_alphabet word n W)
    (i : Nat) (hi : (i : Int) < n) :
    0 ≤ word.getD i 0 ∧ word.getD i 0 < W := by
  have h1 : i < word.length := by have := hw.1; omega
  have h2 : i < (word.take n.toNat).length := by
    rw [List.length_take]; omega
  have hm : (word.take n.toNat)[i] ∈ word.take n.toNat := List.getElem_mem h2
  rw [List.getElem_take] at hm
  rw [List.getD_eq_getElem word 0 h1]
  exact hw.2 _ hm

/-! ## The counting loop -/

theorem count_step_spec (word : List Int) (n W : Int) (t : List Int × List Int)
    (i : Nat) (hi : (i : Int) + 1 < (word.length : Int))
    (hx : 0 ≤ word.getD i 0 ∧ word.getD i 0 < W)
    (hy : 0 ≤ word.getD (i + 1) 0 ∧ word.getD (i + 1) 0 < W)
    (h1 : (t.1.length : Int) = W * W) (h2 : (t.2.length : Int) = W) :
    ∃ t', count_step word n W t i = some t' ∧
      t'.1.length = t.1.length ∧ t'.2.length = t.2.length ∧
      (∀ k : Nat, t'.1.getD k 0 = t.1.getD k 0 +
        if (k : Int) = index_2d (word.getD i 0) (word.getD (i + 1) 0) W W
        then 1 else 0) ∧
      (∀ k : Nat, t'.2.getD k 0 = t.2.getD k 0 +
        (if (k : Int) = word.getD i 0 then 1 else 0) +
        (if (i : Int) = n - 2 ∧ (k : Int) = word.getD (i + 1) 0 then 1 else 0)) := by
  have hW : 0 ≤ W := by omega
  have lx : load word (i : Int) = some (word.getD i 0) :=
    load_natCast word 0 i (by omega)
  have ly : load word ((i : Int) + 1) = some (word.getD (i + 1) 0) := by
    have := load_natCast word 0 (i + 1) (by omega)
    simpa using this
  obtain ⟨tc1, e1, l1, p1⟩ := incr_spec t.1
    (index_2d (word.getD i 0) (word.getD (i + 1) 0) W W)
    (index_2d_nonneg W _ _ hx.1 hy.1 hW)
    (by rw [h1]; exact index_2d_lt W _ _ hx.2 hy.2 hW)
  obtain ⟨cc1, e2, l2, p2⟩ := incr_spec t.2 (word.getD i 0) hx.1 (by omega)
  by_cases hlast : (i : Int) = n - 2
  · obtain ⟨cc2, e3, l3, p3⟩ := incr_spec cc1 (word.getD (i + 1) 0) hy.1 (by omega)
    refine ⟨(tc1, cc2), ?_, l1, l3.trans l2, p1, ?_⟩
    · unfold count_step
      rw [lx, ly]
      simp only [Option.some_bind, hx.2, hy.2, and_self, if_true, e1, e2]
      rw [if_pos hlast, e3]
      rfl
    · intro k
      simp only [p3, p2, hlast, true_and]
  · refine ⟨(tc1, cc1), ?_, l1, l2, p1, ?_⟩
    · unfold count_step
      rw [lx, ly]
      simp only [Option.some_bind, hx.2, hy.2, and_self, if_true, e1, e2]
      rw [if_neg hlast]
    · intro k
      simp only [p2, hlast, false_and, if_false, add_zero]

theorem countP_range_succ (p : Nat → Bool) (m : Nat) :
    (List.range (m + 1)).countP p = (List.range m).countP p + if p m then 1 else 0 := by
  rw [List.range_succ, List.countP_append]
  simp [List.countP_cons]

theorem count_word_transitions_spec (word : List Int) (n W : Int)
    (tc cc : List Int) (hw : in_alphabet word n W)
    (h1 : (tc.length : Int) = W * W) (h2 : (cc.length : Int) = W) :
    ∃ t', count_word_transitions word n W tc cc = some t' ∧
      t'.1.length = tc.length ∧ t'.2.length = cc.length ∧
      (∀ k : Nat, t'.1.getD k 0 = tc.getD k 0 +
        ((List.range (n - 1).toNat).countP (fun (i : Nat) => decide ((k : Int) =
          index_2d (word.getD i 0) (word.getD (i + 1) 0) W W)) : Nat)) ∧
      (∀ k : Nat, t'.2.getD k 0 = cc.getD k 0 +
        ((List.range (n - 1).toNat).countP
          (fun (i : Nat) => decide ((k : Int) = word.getD i 0)) : Nat) +
        ((List.range (n - 1).toNat).countP
          (fun (i : Nat) => decide ((i : Int) = n - 2 ∧ (k : Int) = word.getD (i + 1) 0)) : Nat)) := by
  unfold count_word_transitions
  have key := foldlM_range_inv (count_step word n W)
    (fun m t => t.1.length = tc.length ∧ t.2.length = cc.length ∧
      (∀ k : Nat, t.1.getD k 0 = tc.getD k 0 +
        ((List.range m).countP (fun (i : Nat) => decide ((k : Int) =
          index_2d (word.getD i 0) (word.getD (i + 1) 0) W W)) : Nat)) ∧
      (∀ k : Nat, t.2.getD k 0 = cc.getD k 0 +
        ((List.range m).countP
          (fun (i : Nat) => decide ((k : Int) = word.getD i 0)) : Nat) +
        ((List.range m).countP
          (fun (i : Nat) => decide ((i : Int) = n - 2 ∧ (k : Int) = word.getD (i + 1) 0)) : Nat)))
    (n - 1).toNat (tc, cc) (by simp) ?_
  · obtain ⟨t', e, l1, l2, p1, p2⟩ := key
    exact ⟨t', e, l1, l2, p1, p2⟩
  · intro m t hm ⟨l1, l2, p1, p2⟩
    obtain ⟨t', e, l1', l2', q1, q2⟩ := count_step_spec word n W t m
      (by have := hw.1; omega) (in_alphabet_getD hw m (by omega))
      (by have := in_alphabet_getD hw (m + 1) (by push_cast; omega); simpa using this)
      (by rw [l1]; exact h1) (by rw [l2]; exact h2)
    refine ⟨t', e, by omega, by omega, ?_, ?_⟩
    · intro k
      rw [q1, p1, countP_range_succ]
      simp only [decide_eq_true_eq]
      split
      · push_cast; ring
      · push_cast; ring
    · intro k
      rw [q2, p2, countP_range_succ, countP_range_succ]
      simp only [decide_eq_true_eq]
      split <;> split <;> simp <;> ring
theorem count_word_transitions_hits (word : List Int) (n W : Int)
    (tc cc : List Int) (hw : in_alphabet word n W)
    (h1 : (tc.length : Int) = W * W) (h2 : (cc.length : Int) = W) :
    ∃ t', count_word_transitions word n W tc cc = some t' ∧
      t'.1.length = tc.length ∧ t'.2.length = cc.length ∧
      (∀ k : Nat, t'.1.getD k 0 = tc.getD k 0 + (pair_hits word n W k : Nat)) ∧
      (∀ k : Nat, t'.2.getD k 0 = cc.getD k 0 + (char_hits word n k : Nat)) := by
  obtain ⟨t', e, l1, l2, p1, p2⟩ := count_word_transitions_spec word n W tc cc hw h1 h2
  refine ⟨t', e, l1, l2, p1, ?_⟩
  intro k
  rw [p2 k]
  unfold char_hits
  push_cast
  ring

theorem getElem?_eq_some_getD (word : List Int) (i : Nat) (x : Int)
    (h : i < word.length) : word[i]? = some x ↔ word.getD i 0 = x := by
  simp [List.getD_eq_getElem?_getD, List.getElem?_eq_getElem h]

theorem pair_hits_eq_transitions (word : List Int) (n W x y : Int)
    (hw : in_alphabet word n W) (hx : 0 ≤ x) (hy0 : 0 ≤ y) (hy : y < W) :
    pair_hits word n W (index_2d x y W W).toNat = transitions word n x y := by
  unfold pair_hits transitions
  have hW : 0 ≤ W := by omega
  have hidx : ((index_2d x y W W).toNat : Int) = index_2d x y W W :=
    Int.toNat_of_nonneg (index_2d_nonneg W x y hx hy0 hW)
  apply List.countP_congr
  intro i hi
  rw [List.mem_range] at hi
  have hi1 : i + 1 < word.length := by have := hw.1; omega
  have hb := in_alphabet_getD hw (i + 1) (by push_cast; omega)
  simp only [decide_eq_true_eq, hidx]
  rw [getElem?_eq_some_getD word i x (by omega),
    getElem?_eq_some_getD word (i + 1) y hi1]
  constructor
  · intro h
    have := index_2d_inj W x y _ _ hy0 hy hb.1 hb.2 h
    exact ⟨this.1.symm, this.2.symm⟩
  · rintro ⟨ha, hb'⟩
    rw [ha, hb']

theorem pair_hits_eq_zero (word : List Int) (n W : Int) (k : Nat)
    (h : ∀ i : Nat, (i : Int) < n - 1 →
      index_2d (word.getD i 0) (word.getD (i + 1) 0) W W ≠ (k : Int)) :
    pair_hits word n W k = 0 := by
  unfold pair_hits
  rw [List.countP_eq_zero]
  intro i hi
  rw [List.mem_range] at hi
  simp only [decide_eq_true_eq]
  exact fun e => h i (by omega) e.symm

theorem count_take_eq_countP (word : List Int) (c : Int) (m : Nat)
    (hm : m ≤ word.length) :
    (word.take m).count c =
      (List.range m).countP (fun (i : Nat) => decide (c = word.getD i 0)) := by
  induction m with
  | zero => simp
  | succ m ih =>
    have hlt : m < word.length := by omega
    rw [List.take_succ, List.count_append, ih (by omega), countP_range_succ,
      List.getElem?_eq_getElem hlt, List.getD_eq_getElem word 0 hlt]
    by_cases h : c = word[m]
    · simp [List.count_cons, h]
    · have h' : ¬ word[m] = c := fun e => h e.symm
      simp [List.count_cons, h, h']

theorem char_hits_eq_occurrences (word : List Int) (n : Int) (k : Nat)
    (hn : 2 ≤ n) (hlen : n ≤ (word.length : Int)) :
    char_hits word n k = occurrences word n (k : Int) := by
  unfold char_hits occurrences
  obtain ⟨m, rfl⟩ : ∃ m : Nat, n = (m : Int) + 2 := ⟨(n - 2).toNat, by omega⟩
  have e1 : ((m : Int) + 2 - 1).toNat = m + 1 := by omega
  have e2 : ((m : Int) + 2).toNat = (m + 1) + 1 := by omega
  rw [e1, e2, count_take_eq_countP word k (m + 1 + 1) (by omega),
    countP_range_succ _ (m + 1), countP_range_succ _ m, countP_range_succ _ m]
  have hz : (List.range m).countP (fun (i : Nat) =>
      decide ((i : Int) = (m : Int) + 2 - 2 ∧
        (k : Int) = word.getD (i + 1) 0)) = 0 := by
    rw [List.countP_eq_zero]
    intro i hi
    rw [List.mem_range] at hi
    simp only [decide_eq_true_eq]
    omega
  rw [hz]
  simp

/-! ## Training -/

theorem for_line_in_file_spec (W : Int) (lines : List (List Int))
    (hl : ∀ line ∈ lines, in_alphabet line ((line.length : Int) - 1) W)
    (c0 : LanguageClassifier) (hW : c0.alphabet_width = W)
    (h1 : (c0.transition_counts.length : Int) = W * W)
    (h2 : (c0.character_counts.length : Int) = W) :
    ∃ c, for_line_in_file lines build_classifier_from_line c0 = some c ∧
      c.alphabet_width = W ∧
      c.transition_frequencies = c0.transition_frequencies ∧
      c.character_frequencies = c0.character_frequencies ∧
      c.transition_counts.length = c0.transition_counts.length ∧
      c.character_counts.length = c0.character_counts.length ∧
      (∀ k : Nat, c.transition_counts.getD k 0 = c0.transition_counts.getD k 0 +
        ((lines.map (fun l => pair_hits l ((l.length : Int) - 1) W k)).sum : Nat)) ∧
      (∀ k : Nat, c.character_counts.getD k 0 = c0.character_counts.getD k 0 +
        ((lines.map (fun l => char_hits l ((l.length : Int) - 1) k)).sum : Nat)) := by
  induction lines generalizing c0 with
  | nil => exact ⟨c0, by simp [for_line_in_file], hW, rfl, rfl, rfl, rfl, by simp, by simp⟩
  | cons line rest ih =>
    obtain ⟨t, e, l1, l2, p1, p2⟩ := count_word_transitions_hits line
      ((line.length : Int) - 1) W c0.transition_counts c0.character_counts
      (hl line (List.mem_cons_self _ _)) h1 h2
    have hb : build_classifier_from_line line (line.length : Int) c0 =
        some { c0 with transition_counts := t.1, character_counts := t.2 } := by
      simp [build_classifier_from_line, hW, e]
    obtain ⟨c, ec, w, f1, f2, m1, m2, q1, q2⟩ :=
      ih (fun l hm => hl l (List.mem_cons_of_mem _ hm))
        { c0 with transition_counts := t.1, character_counts := t.2 } hW
        (by simpa [l1] using h1) (by simpa [l2] using h2)
    refine ⟨c, ?_, w, f1, f2, m1.trans l1, m2.trans l2, ?_, ?_⟩
    · unfold for_line_in_file at ec ⊢
      rw [List.foldlM_cons, hb]
      exact ec
    · intro k
      rw [q1 k]
      simp only [p1 k, List.map_cons, List.sum_cons]
      push_cast
      ring
    · intro k
      rw [q2 k]
      simp only [p2 k, List.map_cons, List.sum_cons]
      push_cast
      ring

/-! ## The shape of the tables is kept by training -/

theorem foldlM_preserves {σ α : Type} (f : σ → α → Option σ) (Q : σ → Prop)
    (hf : ∀ s a s', f s a = some s' → Q s → Q s') :
    ∀ (l : List α) (s s' : σ), l.foldlM f s = some s' → Q s → Q s' := by
  intro l
  induction l with
  | nil =>
    intro s s' h hq
    simp only [List.foldlM_nil] at h
    cases h
    exact hq
  | cons a rest ih =>
    intro s s' h hq
    rw [List.foldlM_cons] at h
    cases hs : f s a with
    | none => rw [hs] at h; exact Option.noConfusion h
    | some s1 =>
      rw [hs] at h
      exact ih s1 s' h (hf s a s1 hs hq)

theorem store_length {α : Type} (a a' : List α) (i : Int) (v : α)
    (h : store a i v = some a') : a'.length = a.length := by
  unfold store at h
  split at h
  · cases h
    exact List.length_set _ _ _
  · exact Option.noConfusion h

theorem incr_length (a a' : List Int) (i : Int) (h : incr a i = some a') :
    a'.length = a.length := by
  unfold incr at h
  cases hl : load a i with
  | none => rw [hl] at h; exact Option.noConfusion h
  | some v =>
    rw [hl, Option.some_bind] at h
    exact store_length a a' i _ h

theorem count_step_length (word : List Int) (n W : Int) (t t' : List Int × List Int)
    (i : Nat) (h : count_step word n W t i = some t') :
    t'.1.length = t.1.length ∧ t'.2.length = t.2.length := by
  unfold count_step at h
  cases hx : load word (i : Int) with
  | none => rw [hx] at h; exact Option.noConfusion h
  | some x =>
    rw [hx, Option.some_bind] at h
    cases hy : load word ((i : Int) + 1) with
    | none => rw [hy] at h; exact Option.noConfusion h
    | some y =>
      rw [hy, Option.some_bind] at h
      have hmid : ∀ t1, (if x < W ∧ y < W then
            (incr t.1 (index_2d x y W W)).bind (fun tc =>
            (incr t.2 x).bind (fun cc => some (tc, cc)))
          else some t) = some t1 →
          t1.1.length = t.1.length ∧ t1.2.length = t.2.length := by
        intro t1 h1
        split at h1
        · cases ha : incr t.1 (index_2d x y W W) with
          | none => rw [ha] at h1; exact Option.noConfusion h1
          | some tc =>
            rw [ha, Option.some_bind] at h1
            cases hb : incr t.2 x with
            | none => rw [hb] at h1; exact Option.noConfusion h1
            | some cc =>
              rw [hb, Option.some_bind] at h1
              cases h1
              exact ⟨incr_length _ _ _ ha, incr_length _ _ _ hb⟩
        · cases h1
          exact ⟨rfl, rfl⟩
      cases hm : (if x < W ∧ y < W then
            (incr t.1 (index_2d x y W W)).bind (fun tc =>
            (incr t.2 x).bind (fun cc => some (tc, cc)))
          else some t) with
      | none => rw [hm] at h; exact Option.noConfusion h
      | some t1 =>
        rw [hm, Option.some_bind] at h
        obtain ⟨k1, k2⟩ := hmid t1 hm
        split at h
        · cases hc : incr t1.2 y with
          | none => rw [hc] at h; exact Option.noConfusion h
          | some cc =>
            rw [hc, Option.some_bind] at h
            cases h
            exact ⟨k1, (incr_length _ _ _ hc).trans k2⟩
        · cases h
          exact ⟨k1, k2⟩

theorem train_shape (W : Int) (lines : List (List Int)) (c : LanguageClassifier)
    (h : train lines W = some c) :
    c.alphabet_width = W ∧
    c.transition_frequencies = List.replicate (W * W).toNat 0 ∧
    c.character_frequencies = List.replicate W.toNat 0 ∧
    c.transition_counts.length = (W * W).toNat ∧
    c.character_counts.length = W.toNat := by
  unfold train for_line_in_file at h
  refine foldlM_preserves
    (fun ctx line => build_classifier_from_line line (line.length : Int) ctx)
    (fun c => c.alphabet_width = W ∧
      c.transition_frequencies = List.replicate (W * W).toNat 0 ∧
      c.character_frequencies = List.replicate W.toNat 0 ∧
      c.transition_counts.length = (W * W).toNat ∧
      c.character_counts.length = W.toNat)
    ?_ lines (calloc_classifier W) c h ?_
  · intro s line s' hs ⟨q1, q2, q3, q4, q5⟩
    beta_reduce at hs
    unfold build_classifier_from_line at hs
    cases ht : count_word_transitions line ((line.length : Int) - 1) s.alphabet_width
        s.transition_counts s.character_counts with
    | none => rw [ht] at hs; exact Option.noConfusion hs
    | some t =>
      rw [ht, Option.some_bind] at hs
      cases hs
      unfold count_word_transitions at ht
      have hk := foldlM_preserves
        (count_step line ((line.length : Int) - 1) s.alphabet_width)
        (fun t => t.1.length = s.transition_counts.length ∧
          t.2.length = s.character_counts.length)
        (fun a i a' ha hq => by
          obtain ⟨k1, k2⟩ := count_step_length _ _ _ a a' i ha
          exact ⟨k1.trans hq.1, k2.trans hq.2⟩)
        _ _ t ht ⟨rfl, rfl⟩
      exact ⟨q1, q2, q3, hk.1.trans q4, hk.2.trans q5⟩
  · simp [calloc_classifier]

/-! ## Normalisation of the transition counts -/

theorem index_2d_natCast (i j n : Nat) :
    index_2d (i : Int) (j : Int) (n : Int) (n : Int) = ((i * n + j : Nat) : Int) := by
  unfold index_2d
  push_cast
  ring

theorem entry_natCast {α : Type} [Zero α] (a : List α) (k : Nat) :
    entry a (k : Int) = a.getD k 0 := by
  simp [entry, load, List.getD_eq_getElem?_getD]

theorem row_cell_lt (i j n : Nat) (hi : i < n) (hj : j < n) : i * n + j < n * n := by
  have h : (i + 1) * n ≤ n * n := Nat.mul_le_mul_right n hi
  have e : (i + 1) * n = i * n + n := by ring
  omega

theorem row_window (x m j n : Nat) (hj : j < n) :
    (m * n ≤ x * n + j ∧ x * n + j < m * n + n) ↔ x = m := by
  constructor
  · rintro ⟨h1, h2⟩
    rcases Nat.lt_trichotomy x m with h | h | h
    · exfalso
      have h3 : (x + 1) * n ≤ m * n := Nat.mul_le_mul_right n h
      have e : (x + 1) * n = x * n + n := by ring
      omega
    · exact h
    · exfalso
      have h3 : (m + 1) * n ≤ x * n := Nat.mul_le_mul_right n h
      have e : (m + 1) * n = m * n + n := by ring
      omega
  · rintro rfl
    omega

theorem row_sum_spec (n : Nat) (counts : List Int) (hc : counts.length = n * n)
    (i : Nat) (hi : i < n) :
    row_sum counts (n : Int) i =
      some (∑ j ∈ Finset.range n, ((counts.getD (i * n + j) 0 : Int) : ℚ)) := by
  unfold row_sum
  obtain ⟨s, e, hs⟩ := foldlM_range_inv
    (fun (s : ℚ) (j : Nat) =>
      (load counts (index_2d i j n n)).bind (fun c => some (s + (c : ℚ))))
    (fun m s => s = ∑ j ∈ Finset.range m, ((counts.getD (i * n + j) 0 : Int) : ℚ))
    n 0 (by simp) (by
      intro m s hm hs
      refine ⟨s + ((counts.getD (i * n + m) 0 : Int) : ℚ), ?_, ?_⟩
      · beta_reduce
        rw [index_2d_natCast, load_natCast counts 0 _
          (by rw [hc]; exact row_cell_lt i m n hi hm)]
        rfl
      · beta_reduce
        rw [Finset.sum_range_succ, hs])
  rw [Int.toNat_natCast, e, hs]

theorem freq_row_spec (n : Nat) (counts : List Int) (freqs : List ℚ)
    (hc : counts.length = n * n) (hf : freqs.length = n * n) (i : Nat)
    (hi : i < n) (rs : ℚ) :
    ∃ fr, (List.range n).foldlM (freq_step counts (n : Int) i rs) freqs = some fr ∧
      fr.length = freqs.length ∧
      ∀ k : Nat, fr.getD k 0 =
        if 0 < rs ∧ i * n ≤ k ∧ k < i * n + n
        then ((counts.getD k 0 : Int) : ℚ) / rs else freqs.getD k 0 := by
  apply foldlM_range_inv (freq_step counts (n : Int) i rs)
    (fun m fr => fr.length = freqs.length ∧
      ∀ k : Nat, fr.getD k 0 =
        if 0 < rs ∧ i * n ≤ k ∧ k < i * n + m
        then ((counts.getD k 0 : Int) : ℚ) / rs else freqs.getD k 0)
    n freqs
  · refine ⟨rfl, fun k => ?_⟩
    rw [if_neg]
    omega
  · intro m fr hm ⟨hl, hp⟩
    have hcell := row_cell_lt i m n hi hm
    by_cases hrs : 0 < rs
    · refine ⟨fr.set (i * n + m) (((counts.getD (i * n + m) 0 : Int) : ℚ) / rs),
        ?_, by simpa using hl, ?_⟩
      · unfold freq_step
        rw [if_pos hrs, index_2d_natCast,
          load_natCast counts 0 _ (by omega), Option.some_bind,
          store_of_lt fr _ _ (by omega) (by omega), Int.toNat_natCast]
      · intro k
        rw [getD_set fr 0 _ _ k (by omega), hp k]
        by_cases hk : k = i * n + m
        · subst hk
          rw [if_pos rfl, if_pos ⟨hrs, by omega, by omega⟩]
        · rw [if_neg hk]
          by_cases h1 : 0 < rs ∧ i * n ≤ k ∧ k < i * n + m
          · rw [if_pos h1, if_pos ⟨hrs, h1.2.1, by omega⟩]
          · rw [if_neg h1, if_neg]
            rintro ⟨_, h2, h3⟩
            exact h1 ⟨hrs, h2, by omega⟩
    · refine ⟨fr, ?_, hl, ?_⟩
      · unfold freq_step
        rw [if_neg hrs]
      · intro k
        rw [hp k, if_neg (fun h => hrs h.1), if_neg (fun h => hrs h.1)]

theorem convert_transition_counts_to_freqs_spec (n : Nat) (counts : List Int)
    (freqs : List ℚ) (hc : counts.length = n * n) (hf : freqs.length = n * n) :
    ∃ tf, convert_transition_counts_to_freqs counts (n : Int) freqs = some tf ∧
      tf.length = freqs.length ∧
      ∀ x j : Nat, j < n → tf.getD (x * n + j) 0 =
        if x < n ∧ 0 < ∑ l ∈ Finset.range n, ((counts.getD (x * n + l) 0 : Int) : ℚ)
        then ((counts.getD (x * n + j) 0 : Int) : ℚ) /
          ∑ l ∈ Finset.range n, ((counts.getD (x * n + l) 0 : Int) : ℚ)
        else freqs.getD (x * n + j) 0 := by
  unfold convert_transition_counts_to_freqs
  rw [Int.toNat_natCast]
  apply foldlM_range_inv (convert_row counts (n : Int))
    (fun m tf => tf.length = freqs.length ∧
      ∀ x j : Nat, j < n → tf.getD (x * n + j) 0 =
        if x < m ∧ 0 < ∑ l ∈ Finset.range n, ((counts.getD (x * n + l) 0 : Int) : ℚ)
        then ((counts.getD (x * n + j) 0 : Int) : ℚ) /
          ∑ l ∈ Finset.range n, ((counts.getD (x * n + l) 0 : Int) : ℚ)
        else freqs.getD (x * n + j) 0)
    n freqs
  · refine ⟨rfl, fun x j _ => ?_⟩
    rw [if_neg]
    omega
  · intro m tf hm ⟨hl, hp⟩
    obtain ⟨fr, e, hl', hq⟩ := freq_row_spec n counts tf hc (by omega) m hm
      (∑ l ∈ Finset.range n, ((counts.getD (m * n + l) 0 : Int) : ℚ))
    refine ⟨fr, ?_, by omega, ?_⟩
    · unfold convert_row
      rw [row_sum_spec n counts hc m hm, Option.some_bind, Int.toNat_natCast]
      exact e
    · intro x j hj
      rw [hq (x * n + j), hp x j hj]
      have hwin := row_window x m j n hj
      by_cases hx : x = m
      · subst hx
        by_cases hrs : 0 < ∑ l ∈ Finset.range n, ((counts.getD (x * n + l) 0 : Int) : ℚ)
        · rw [if_pos ⟨hrs, hwin.2 rfl⟩, if_pos ⟨by omega, hrs⟩]
        · rw [if_neg (fun h => hrs h.1), if_neg (fun h => hrs h.2),
            if_neg (fun h => hrs h.2)]
      · rw [if_neg (fun h => hx (hwin.1 h.2))]
        by_cases h1 : x < m ∧
            0 < ∑ l ∈ Finset.range n, ((counts.getD (x * n + l) 0 : Int) : ℚ)
        · rw [if_pos h1, if_pos ⟨by omega, h1.2⟩]
        · rw [if_neg h1, if_neg]
          rintro ⟨h2, h3⟩
          exact h1 ⟨by omega, h3⟩

/-! ## Normalisation of the character counts -/

theorem character_sum_spec (n : Nat) (counts : List Int) (hc : counts.length = n) :
    character_sum counts (n : Int) =
      some (∑ i ∈ Finset.range n, ((counts.getD i 0 : Int) : ℚ)) := by
  unfold character_sum
  obtain ⟨s, e, hs⟩ := foldlM_range_inv
    (fun (s : ℚ) (i : Nat) => (load counts i).bind (fun c => some (s + (c : ℚ))))
    (fun m s => s = ∑ i ∈ Finset.range m, ((counts.getD i 0 : Int) : ℚ))
    n 0 (by simp) (by
      intro m s hm hs
      refine ⟨s + ((counts.getD m 0 : Int) : ℚ), ?_, ?_⟩
      · beta_reduce
        rw [load_natCast counts 0 _ (by omega)]
        rfl
      · beta_reduce
        rw [Finset.sum_range_succ, hs])
  rw [Int.toNat_natCast, e, hs]

theorem convert_character_counts_to_freqs_spec (n : Nat) (counts : List Int)
    (freqs : List ℚ) (hc : counts.length = n) (hf : freqs.length = n)
    (hs : ∑ i ∈ Finset.range n, ((counts.getD i 0 : Int) : ℚ) ≠ 0) :
    ∃ cf, convert_character_counts_to_freqs counts (n : Int) freqs = some cf ∧
      cf.length = freqs.length ∧
      ∀ k : Nat, k < n → cf.getD k 0 = ((counts.getD k 0 : Int) : ℚ) /
        ∑ i ∈ Finset.range n, ((counts.getD i 0 : Int) : ℚ) := by
  unfold convert_character_counts_to_freqs
  rw [character_sum_spec n counts hc, Option.some_bind, Int.toNat_natCast]
  obtain ⟨cf, e, l, p⟩ := foldlM_range_inv
    (fun (fr : List ℚ) (i : Nat) =>
        (load counts i).bind (fun c =>
        (fdiv (c : ℚ) (∑ i ∈ Finset.range n, ((counts.getD i 0 : Int) : ℚ))).bind
          (fun q => store fr i q)))
    (fun m fr => fr.length = freqs.length ∧
      ∀ k : Nat, k < m → fr.getD k 0 = ((counts.getD k 0 : Int) : ℚ) /
        ∑ i ∈ Finset.range n, ((counts.getD i 0 : Int) : ℚ))
    n freqs ⟨rfl, fun k hk => absurd hk (Nat.not_lt_zero k)⟩ (by
      intro m fr hm ⟨hl, hp⟩
      refine ⟨fr.set m (((counts.getD m 0 : Int) : ℚ) /
        ∑ i ∈ Finset.range n, ((counts.getD i 0 : Int) : ℚ)), ?_, by simpa using hl, ?_⟩
      · beta_reduce
        rw [load_natCast counts 0 _ (by omega), Option.some_bind]
        unfold fdiv
        rw [if_neg hs, Option.some_bind, store_of_lt fr _ _ (by omega) (by omega),
          Int.toNat_natCast]
      · intro k hk
        rw [getD_set fr 0 _ _ k (by omega)]
        by_cases hkm : k = m
        · subst hkm
          rw [if_pos rfl]
        · rw [if_neg hkm]
          exact hp k (by omega))
  exact ⟨cf, e, l, p⟩

theorem convert_character_counts_to_freqs_none (n : Nat) (counts : List Int)
    (freqs : List ℚ) (hc : counts.length = n) (hn : 0 < n)
    (hs : ∑ i ∈ Finset.range n, ((counts.getD i 0 : Int) : ℚ) = 0) :
    convert_character_counts_to_freqs counts (n : Int) freqs = none := by
  unfold convert_character_counts_to_freqs
  rw [character_sum_spec n counts hc, Option.some_bind, Int.toNat_natCast, hs]
  obtain ⟨m, rfl⟩ : ∃ m, n = m + 1 := ⟨n - 1, by omega⟩
  rw [List.range_succ_eq_map, List.foldlM_cons]
  have h0 : load counts ((0 : Nat) : Int) = some (counts.getD 0 0) :=
    load_natCast counts 0 0 (by omega)
  rw [h0]
  simp [fdiv]

theorem char_hits_eq_zero (word : List Int) (n : Int) (k : Nat) (hn : n ≤ 1) :
    char_hits word n k = 0 := by
  have h : (n - 1).toNat = 0 := by omega
  simp [char_hits, h]

theorem pair_hits_eq_zero_of_short (word : List Int) (n W : Int) (k : Nat)
    (hn : n ≤ 1) : pair_hits word n W k = 0 := by
  have h : (n - 1).toNat = 0 := by omega
  simp [pair_hits, h]

theorem char_hits_first_pos (word : List Int) (n : Int) (k : Nat)
    (hn : 2 ≤ n) (hk : (k : Int) = word.getD 0 0) : 0 < char_hits word n k := by
  unfold char_hits
  apply Nat.add_pos_left
  rw [List.countP_pos_iff]
  exact ⟨0, by rw [List.mem_range]; omega, by simpa using hk⟩

/-! ## The transition score -/

theorem load_eq_some_entry {α : Type} [Zero α] (a : List α) (i : Int) (h0 : 0 ≤ i)
    (h1 : i < (a.length : Int)) : load a i = some (entry a i) := by
  have h := load_of_lt a 0 i h0 h1
  unfold entry
  rw [h]
  rfl

theorem score_loop_spec (c : LanguageClassifier) (buf : List Int) (n : Int)
    (hlen : n ≤ (buf.length : Int))
    (hnn : ∀ i : Nat, (i : Int) < n → 0 ≤ buf.getD i 0)
    (htf : (c.transition_frequencies.length : Int) =
      c.alphabet_width * c.alphabet_width) :
    (List.range (n - 1).toNat).foldlM (score_step c buf) 0 =
      some (transition_sum c buf n) := by
  obtain ⟨s, e, hs⟩ := foldlM_range_inv (score_step c buf)
    (fun m s => s = ∑ i ∈ Finset.range m,
      if (0 ≤ buf.getD i 0 ∧ buf.getD i 0 < c.alphabet_width) ∧
        (0 ≤ buf.getD (i + 1) 0 ∧ buf.getD (i + 1) 0 < c.alphabet_width)
      then 100 * entry c.transition_frequencies
        (index_2d (buf.getD i 0) (buf.getD (i + 1) 0) c.alphabet_width c.alphabet_width)
      else 0)
    (n - 1).toNat 0 (by simp) (by
      intro m s hm hs
      have ha := hnn m (by omega)
      have hb := hnn (m + 1) (by push_cast; omega)
      have la : load buf (m : Int) = some (buf.getD m 0) :=
        load_natCast buf 0 m (by omega)
      have lb : load buf ((m : Int) + 1) = some (buf.getD (m + 1) 0) := by
        have := load_natCast buf 0 (m + 1) (by omega)
        simpa using this
      beta_reduce
      rw [Finset.sum_range_succ, ← hs]
      unfold score_step
      rw [la, lb, Option.some_bind, Option.some_bind]
      by_cases hin : buf.getD m 0 < c.alphabet_width ∧
          buf.getD (m + 1) 0 < c.alphabet_width
      · have hW : 0 ≤ c.alphabet_width := by omega
        rw [if_pos hin, if_pos ⟨⟨ha, hin.1⟩, ⟨hb, hin.2⟩⟩,
          load_eq_some_entry c.transition_frequencies _
            (index_2d_nonneg _ _ _ ha hb hW)
            (by rw [htf]; exact index_2d_lt _ _ _ hin.1 hin.2 hW)]
        exact ⟨_, rfl, rfl⟩
      · rw [if_neg hin, if_neg (fun h => hin ⟨h.1.2, h.2.2⟩), add_zero]
        exact ⟨_, rfl, rfl⟩)
  rw [e, hs]
  unfold transition_sum
  rw [Finset.sum_filter]

theorem score_transitions_spec (c : LanguageClassifier) (buf : List Int) (n : Int)
    (hn : 1 ≤ n) (hlen : n ≤ (buf.length : Int))
    (hnn : ∀ i : Nat, (i : Int) < n → 0 ≤ buf.getD i 0)
    (htf : (c.transition_frequencies.length : Int) =
      c.alphabet_width * c.alphabet_width) :
    score_transitions c buf n = some (transition_sum c buf n / (n : ℚ)) := by
  unfold score_transitions
  rw [score_loop_spec c buf n hlen hnn htf, Option.some_bind]
  unfold fdiv
  have h : ((n : Int) : ℚ) ≠ 0 := by
    have : n ≠ 0 := by omega
    exact_mod_cast this
  rw [if_neg h]

theorem dumb_diff_matrices_spec (a b : List ℚ) (n : Nat) (ha : a.length = n)
    (hb : b.length = n) :
    dumb_diff_matrices a b (n : Int) =
      some (∑ i ∈ Finset.range n,
        if 0 < a.getD i 0 ∧ 0 < b.getD i 0 then |a.getD i 0 - b.getD i 0| else 0) := by
  unfold dumb_diff_matrices
  obtain ⟨s, e, hs⟩ := foldlM_range_inv (dumb_diff_step a b)
    (fun m s => s = ∑ i ∈ Finset.range m,
      if 0 < a.getD i 0 ∧ 0 < b.getD i 0 then |a.getD i 0 - b.getD i 0| else 0)
    n 0 (by simp) (by
      intro m s hm hs
      beta_reduce
      rw [Finset.sum_range_succ, ← hs]
      unfold dumb_diff_step
      rw [load_natCast a 0 m (by omega), load_natCast b 0 m (by omega),
        Option.some_bind, Option.some_bind]
      by_cases hle : a.getD m 0 ≤ 0 ∨ b.getD m 0 ≤ 0
      · rw [if_pos hle, if_neg, add_zero]
        · exact ⟨_, rfl, rfl⟩
        · rintro ⟨h1, h2⟩
          rcases hle with h | h
          · exact absurd h1 (not_lt.mpr h)
          · exact absurd h2 (not_lt.mpr h)
      · rw [if_neg hle]
        have hpos : 0 < a.getD m 0 ∧ 0 < b.getD m 0 :=
          ⟨not_le.mp (fun h => hle (Or.inl h)), not_le.mp (fun h => hle (Or.inr h))⟩
        rw [if_pos hpos]
        by_cases hd : |a.getD m 0 - b.getD m 0| > 0
        · rw [if_pos hd]
          exact ⟨_, rfl, rfl⟩
        · rw [if_neg hd]
          have hz : |a.getD m 0 - b.getD m 0| = 0 :=
            le_antisymm (not_lt.mp hd) (abs_nonneg _)
          rw [hz, add_zero]
          exact ⟨_, rfl, rfl⟩)
  rw [Int.toNat_natCast, e, hs]

theorem buf_freqs_spec (buf : List Int) (n : Int) (w : Nat) (hn : 1 ≤ n)
    (hw : in_alphabet buf n (w : Int)) :
    ∃ bf, (List.range n.toNat).foldlM (buf_freqs_step buf n)
        (List.replicate w (0 : ℚ)) = some bf ∧
      bf.length = w ∧
      ∀ k : Nat, bf.getD k 0 = buffer_frequency buf n (k : Int) := by
  have hq : ((n : Int) : ℚ) ≠ 0 := by
    have : n ≠ 0 := by omega
    exact_mod_cast this
  obtain ⟨bf, e, l, p⟩ := foldlM_range_inv (buf_freqs_step buf n)
    (fun m bf => bf.length = w ∧
      ∀ k : Nat, bf.getD k 0 =
        (((List.range m).countP
          (fun (i : Nat) => decide ((k : Int) = buf.getD i 0)) : Nat) : ℚ) * (1 / (n : ℚ)))
    n.toNat (List.replicate w (0 : ℚ))
    ⟨List.length_replicate _ _, fun k => by simp [getD_replicate_zero]⟩ (by
      intro m bf hm ⟨hl, hp⟩
      have hs := in_alphabet_getD hw m (by omega)
      have hlen := hw.1
      refine ⟨bf.set (buf.getD m 0).toNat
        (bf.getD (buf.getD m 0).toNat 0 + 1 / (n : ℚ)), ?_, by simpa using hl, ?_⟩
      · unfold buf_freqs_step
        rw [load_natCast buf 0 m (by omega), Option.some_bind,
          load_of_lt bf 0 _ hs.1 (by omega), Option.some_bind]
        unfold fdiv
        rw [if_neg hq, Option.some_bind, store_of_lt bf _ _ hs.1 (by omega)]
      · intro k
        rw [getD_set bf 0 _ _ k (by omega), countP_range_succ, hp]
        by_cases hk : (k : Int) = buf.getD m 0
        · have hk' : k = (buf.getD m 0).toNat := by omega
          rw [if_pos hk', ← hk', if_pos (decide_eq_true hk)]
          push_cast
          ring
        · have hk' : ¬ k = (buf.getD m 0).toNat := by omega
          rw [if_neg hk', hp k, if_neg (by simpa using hk), Nat.add_zero])
  refine ⟨bf, e, l, ?_⟩
  intro k
  rw [p k]
  unfold buffer_frequency occurrences
  rw [count_take_eq_countP buf (k : Int) n.toNat (by have := hw.1; omega)]
  ring

theorem score_frequencies_spec (c : LanguageClassifier) (buf : List Int) (n : Int)
    (hn : 1 ≤ n) (hw : in_alphabet buf n c.alphabet_width)
    (hcf : (c.character_frequencies.length : Int) = c.alphabet_width) :
    score_frequencies c buf n = some (frequency_distance c buf n) := by
  obtain ⟨w, hwe⟩ : ∃ w : Nat, c.alphabet_width = (w : Int) :=
    ⟨c.alphabet_width.toNat, by omega⟩
  rw [hwe] at hw hcf
  obtain ⟨bf, e, l, p⟩ := buf_freqs_spec buf n w hn hw
  unfold score_frequencies frequency_distance
  rw [hwe, Int.toNat_natCast, e, Option.some_bind,
    dumb_diff_matrices_spec c.character_frequencies bf w (by omega) l,
    Finset.sum_filter]
  congr 1
  apply Finset.sum_congr rfl
  intro i _
  rw [entry_natCast, p i]

/-! ## The trained classifier -/

theorem train_spec (W : Int) (hW : 0 ≤ W) (lines : List (List Int))
    (hl : ∀ line ∈ lines, in_alphabet line ((line.length : Int) - 1) W) :
    ∃ c, train lines W = some c ∧
      c.alphabet_width = W ∧
      c.transition_frequencies = List.replicate (W * W).toNat 0 ∧
      c.character_frequencies = List.replicate W.toNat 0 ∧
      (c.transition_counts.length : Int) = W * W ∧
      (c.character_counts.length : Int) = W ∧
      (∀ k : Nat, c.transition_counts.getD k 0 =
        ((lines.map (fun l => pair_hits l ((l.length : Int) - 1) W k)).sum : Nat)) ∧
      (∀ k : Nat, c.character_counts.getD k 0 =
        ((lines.map (fun l => char_hits l ((l.length : Int) - 1) k)).sum : Nat)) := by
  have hc1 : ((calloc_classifier W).transition_counts.length : Int) = W * W := by
    have := mul_self_nonneg W
    simp only [calloc_classifier, List.length_replicate]
    omega
  have hc2 : ((calloc_classifier W).character_counts.length : Int) = W := by
    simp [calloc_classifier, hW]
  obtain ⟨c, e, w, f1, f2, m1, m2, q1, q2⟩ :=
    for_line_in_file_spec W lines hl (calloc_classifier W) rfl hc1 hc2
  refine ⟨c, e, w, f1, f2, by rw [m1]; exact hc1, by rw [m2]; exact hc2, ?_, ?_⟩
  · intro k
    rw [q1 k]
    simp [calloc_classifier, getD_replicate_zero]
  · intro k
    rw [q2 k]
    simp [calloc_classifier, getD_replicate_zero]

theorem create_language_classifier_spec (n : Nat) (lines : List (List Int))
    (hl : ∀ line ∈ lines, in_alphabet line ((line.length : Int) - 1) (n : Int))
    (h2 : ∃ line ∈ lines, (2 : Int) ≤ (line.length : Int) - 1) :
    ∃ m, create_language_classifier lines (n : Int) = some m ∧
      m.alphabet_width = (n : Int) ∧
      m.transition_frequencies.length = n * n ∧
      m.character_frequencies.length = n ∧
      m.transition_counts.length = n * n ∧
      m.character_counts.length = n ∧
      (∀ k : Nat, m.transition_counts.getD k 0 =
        ((lines.map (fun l => pair_hits l ((l.length : Int) - 1) (n : Int) k)).sum : Nat)) ∧
      (∀ k : Nat, m.character_counts.getD k 0 =
        ((lines.map (fun l => char_hits l ((l.length : Int) - 1) k)).sum : Nat)) ∧
      (∀ x j : Nat, j < n → m.transition_frequencies.getD (x * n + j) 0 =
        if x < n ∧
          0 < ∑ l ∈ Finset.range n, ((m.transition_counts.getD (x * n + l) 0 : Int) : ℚ)
        then ((m.transition_counts.getD (x * n + j) 0 : Int) : ℚ) /
          ∑ l ∈ Finset.range n, ((m.transition_counts.getD (x * n + l) 0 : Int) : ℚ)
        else 0) ∧
      0 < ∑ i ∈ Finset.range n, ((m.character_counts.getD i 0 : Int) : ℚ) ∧
      (∀ k : Nat, k < n → m.character_frequencies.getD k 0 =
        ((m.character_counts.getD k 0 : Int) : ℚ) /
          ∑ i ∈ Finset.range n, ((m.character_counts.getD i 0 : Int) : ℚ)) := by
  obtain ⟨line, hmem, hlong⟩ := h2
  obtain ⟨c, e, w, f1, f2, m1, m2, q1, q2⟩ :=
    train_spec (n : Int) (by omega) lines hl
  have hc1 : c.transition_counts.length = n * n := by
    have : ((n * n : Nat) : Int) = (n : Int) * (n : Int) := by push_cast; ring
    omega
  have hc2 : c.character_counts.length = n := by omega
  have hf1 : c.transition_frequencies.length = n * n := by
    rw [f1, List.length_replicate]
    have : ((n * n : Nat) : Int) = (n : Int) * (n : Int) := by push_cast; ring
    omega
  have hf2 : c.character_frequencies.length = n := by
    rw [f2, List.length_replicate, Int.toNat_natCast]
  have hfirst := in_alphabet_getD (hl line hmem) 0 (by push_cast; omega)
  have hpos : 0 < ∑ i ∈ Finset.range n, ((c.character_counts.getD i 0 : Int) : ℚ) := by
    apply Finset.sum_pos'
    · intro i _
      rw [q2 i]
      positivity
    · refine ⟨(line.getD 0 0).toNat, by rw [Finset.mem_range]; omega, ?_⟩
      rw [q2]
      have h1 : 0 < char_hits line ((line.length : Int) - 1) (line.getD 0 0).toNat :=
        char_hits_first_pos line _ _ hlong (by omega)
      have h3 : char_hits line ((line.length : Int) - 1) (line.getD 0 0).toNat ≤
          (lines.map (fun l => char_hits l ((l.length : Int) - 1)
            (line.getD 0 0).toNat)).sum :=
        List.le_sum_of_mem (List.mem_map_of_mem
          (fun l => char_hits l ((l.length : Int) - 1) (line.getD 0 0).toNat) hmem)
      have h4 : 0 < (lines.map (fun l => char_hits l ((l.length : Int) - 1)
            (line.getD 0 0).toNat)).sum := by omega
      exact_mod_cast h4
  obtain ⟨cf, e2, l2, p2⟩ := convert_character_counts_to_freqs_spec n
    c.character_counts c.character_frequencies hc2 hf2 (ne_of_gt hpos)
  obtain ⟨tf, e1, l1, p1⟩ := convert_transition_counts_to_freqs_spec n
    c.transition_counts c.transition_frequencies hc1 hf1
  refine ⟨{ c with transition_frequencies := tf, character_frequencies := cf },
    ?_, w, by rw [l1, hf1], by rw [l2, hf2], hc1, hc2, q1, q2, ?_, hpos, p2⟩
  · unfold create_language_classifier
    rw [e, Option.some_bind, w, e1, Option.some_bind, e2, Option.some_bind]
  · intro x j hj
    show tf.getD (x * n + j) 0 = _
    rw [p1 x j hj, f1, getD_replicate_zero]

/-! ## Further facts used by the claims -/

theorem transitions_pos (word : List Int) (n : Int) (i : Nat)
    (hi : (i : Int) < n - 1) (hlen : n ≤ (word.length : Int)) :
    0 < transitions word n (word.getD i 0) (word.getD (i + 1) 0) := by
  unfold transitions
  rw [List.countP_pos_iff]
  refine ⟨i, by rw [List.mem_range]; omega, ?_⟩
  simp only [decide_eq_true_eq]
  rw [getElem?_eq_some_getD word i _ (by omega),
    getElem?_eq_some_getD word (i + 1) _ (by omega)]
  exact ⟨rfl, rfl⟩

theorem load_eq_of_getD_eq (a a' : List Int) (k : Int)
    (hl : a'.length = a.length)
    (h : 0 ≤ k → a'.getD k.toNat 0 = a.getD k.toNat 0) :
    load a' k = load a k := by
  by_cases hk : 0 ≤ k ∧ k < (a.length : Int)
  · rw [load_of_lt a 0 k hk.1 hk.2, load_of_lt a' 0 k hk.1 (by omega), h hk.1]
  · rw [load_eq_none a k (by omega), load_eq_none a' k (by omega)]

theorem entry_index_natCast {α : Type} [Zero α] (a : List α) (i j n : Nat) :
    entry a (index_2d (i : Int) (j : Int) (n : Int) (n : Int)) =
      a.getD (i * n + j) 0 := by
  rw [index_2d_natCast, entry_natCast]

theorem create_of_parts (lines : List (List Int)) (W : Int)
    (c : LanguageClassifier) (tf cf : List ℚ) (e : train lines W = some c)
    (e1 : convert_transition_counts_to_freqs c.transition_counts c.alphabet_width
      c.transition_frequencies = some tf)
    (e2 : convert_character_counts_to_freqs c.character_counts c.alphabet_width
      c.character_frequencies = some cf) :
    create_language_classifier lines W =
      some { c with transition_frequencies := tf, character_frequencies := cf } := by
  unfold create_language_classifier
  rw [e, Option.some_bind, e1, Option.some_bind, e2, Option.some_bind]

theorem natCast_mul_self (n : Nat) (a : Nat) (h : (a : Int) = (n : Int) * (n : Int)) :
    a = n * n := by
  have : ((n * n : Nat) : Int) = (n : Int) * (n : Int) := by push_cast; ring
  omega

theorem pair_hits_single (x y t : Int) (W : Int) (k : Nat) :
    pair_hits [x, y, t] (([x, y, t].length : Int) - 1) W k =
      if (k : Int) = index_2d x y W W then 1 else 0 := by
  have h : (((([x, y, t] : List Int).length : Int) - 1) - 1).toNat = 1 := rfl
  unfold pair_hits
  rw [h]
  simp [List.range_succ, List.countP_cons]

theorem trained_on_pair (n x y : Nat) (t : Int) (hx : x < n) (hy : y < n)
    (hxy : x ≠ y) :
    ∃ m, create_language_classifier [[(x : Int), (y : Int), t]] (n : Int) = some m ∧
      m.alphabet_width = (n : Int) ∧
      m.transition_frequencies.length = n * n ∧
      m.transition_frequencies.getD (x * n + y) 0 = 1 ∧
      m.transition_frequencies.getD (y * n + x) 0 = 0 := by
  have hl : ∀ line ∈ [[(x : Int), (y : Int), t]],
      in_alphabet line ((line.length : Int) - 1) (n : Int) := by
    intro line hm
    rw [List.mem_singleton] at hm
    subst hm
    refine ⟨by simp, ?_⟩
    have h : ((([(x : Int), (y : Int), t] : List Int).length : Int) - 1).toNat = 2 := rfl
    rw [h]
    intro c hc
    simp only [List.take_succ_cons, List.take_zero, List.mem_cons, List.mem_singleton,
      List.not_mem_nil, or_false] at hc
    rcases hc with rfl | rfl <;> omega
  obtain ⟨m, e, w, l1, _, _, _, q1, _, p1, _, _⟩ :=
    create_language_classifier_spec n [[(x : Int), (y : Int), t]] hl
      ⟨_, List.mem_singleton.mpr rfl, by simp⟩
  have hcount : ∀ k : Nat, m.transition_counts.getD k 0 =
      if k = x * n + y then 1 else 0 := by
    intro k
    rw [q1 k]
    simp only [List.map_cons, List.map_nil, List.sum_cons, List.sum_nil, Nat.add_zero]
    rw [pair_hits_single, index_2d_natCast]
    by_cases hk : k = x * n + y
    · subst hk; simp
    · have : ¬ (k : Int) = ((x * n + y : Nat) : Int) := by omega
      rw [if_neg this, if_neg hk]
      rfl
  have hrowx : ∑ l ∈ Finset.range n,
      ((m.transition_counts.getD (x * n + l) 0 : Int) : ℚ) = 1 := by
    have : ∀ l ∈ Finset.range n,
        ((m.transition_counts.getD (x * n + l) 0 : Int) : ℚ) =
          if y = l then 1 else 0 := by
      intro l _
      rw [hcount]
      by_cases h : y = l
      · subst h; simp
      · have : ¬ x * n + l = x * n + y := by omega
        simp [h, this]
    rw [Finset.sum_congr rfl this, Finset.sum_ite_eq]
    simp [hy]
  have hrowy : ∑ l ∈ Finset.range n,
      ((m.transition_counts.getD (y * n + l) 0 : Int) : ℚ) = 0 := by
    apply Finset.sum_eq_zero
    intro l hl'
    rw [Finset.mem_range] at hl'
    rw [hcount]
    have : ¬ y * n + l = x * n + y := by
      intro h
      have := (row_window x y y n hy).1 (by omega)
      exact hxy this
    simp [this]
  refine ⟨m, e, w, l1, ?_, ?_⟩
  · rw [p1 x y hy, hrowx, if_pos ⟨hx, by norm_num⟩, hcount, if_pos rfl]
    norm_num
  · rw [p1 y x hx, hrowy, if_neg (fun h => lt_irrefl _ h.2)]

theorem transition_sum_pair (m : LanguageClassifier) (n a b : Nat)
    (w : m.alphabet_width = (n : Int)) (ha : a < n) (hb : b < n) :
    transition_sum m [(a : Int), (b : Int)] 2 =
      100 * m.transition_frequencies.getD (a * n + b) 0 := by
  have h : ((2 : Int) - 1).toNat = 1 := rfl
  unfold transition_sum
  rw [h, Finset.sum_filter, Finset.sum_range_one, w]
  have e0 : ([(a : Int), (b : Int)] : List Int).getD 0 0 = (a : Int) := rfl
  have e1 : ([(a : Int), (b : Int)] : List Int).getD (0 + 1) 0 = (b : Int) := rfl
  rw [e0, e1, if_pos ⟨⟨by omega, by omega⟩, ⟨by omega, by omega⟩⟩,
    entry_index_natCast]

/-! ## Symbols that the range test lets through -/

theorem incr_none (a : List Int) (i : Int) (h : i < 0 ∨ (a.length : Int) ≤ i) :
    incr a i = none := by
  unfold incr
  rw [load_eq_none a i h]
  rfl

theorem count_step_none_of_bad_index (word : List Int) (n W : Int)
    (t : List Int × List Int) (i : Nat) (x y : Int)
    (lx : load word (i : Int) = some x) (ly : load word ((i : Int) + 1) = some y)
    (hx : x < W) (hy : y < W)
    (hidx : index_2d x y W W < 0 ∨ (t.1.length : Int) ≤ index_2d x y W W) :
    count_step word n W t i = none := by
  unfold count_step
  rw [lx, ly, Option.some_bind, Option.some_bind, if_pos ⟨hx, hy⟩,
    incr_none t.1 _ hidx]
  rfl

theorem count_step_some_of_good_index (word : List Int) (n W : Int)
    (t : List Int × List Int) (i : Nat) (x y : Int)
    (lx : load word (i : Int) = some x) (ly : load word ((i : Int) + 1) = some y)
    (hx : x < W) (hy : y < W)
    (hidx : 0 ≤ index_2d x y W W ∧ index_2d x y W W < (t.1.length : Int))
    (hxc : 0 ≤ x ∧ x < (t.2.length : Int)) (hlast : ¬ (i : Int) = n - 2) :
    ∃ t', count_step word n W t i = some t' ∧
      t'.1.length = t.1.length ∧
      load t'.1 (index_2d x y W W) =
        some (t.1.getD (index_2d x y W W).toNat 0 + 1) := by
  obtain ⟨tc1, e1, l1, p1⟩ := incr_spec t.1 (index_2d x y W W) hidx.1 hidx.2
  obtain ⟨cc1, e2, _, _⟩ := incr_spec t.2 x hxc.1 hxc.2
  refine ⟨(tc1, cc1), ?_, l1, ?_⟩
  · unfold count_step
    rw [lx, ly, Option.some_bind, Option.some_bind, if_pos ⟨hx, hy⟩, e1,
      Option.some_bind, e2, Option.some_bind, Option.some_bind, if_neg hlast]
  · rw [load_of_lt tc1 0 _ hidx.1 (by omega), p1,
      if_pos (Int.toNat_of_nonneg hidx.1)]

theorem score_step_none_of_negative_index (c : LanguageClassifier) (buf : List Int)
    (s : ℚ) (i : Nat) (a b : Int)
    (la : load buf (i : Int) = some a) (lb : load buf ((i : Int) + 1) = some b)
    (ha : a < c.alphabet_width) (hb : b < c.alphabet_width)
    (hidx : index_2d a b c.alphabet_width c.alphabet_width < 0) :
    score_step c buf s i = none := by
  unfold score_step
  rw [la, lb, Option.some_bind, Option.some_bind, if_pos ⟨ha, hb⟩,
    load_eq_none _ _ (Or.inl hidx)]
  rfl

theorem foldlM_pair_none {σ : Type} (f : σ → Nat → Option σ) (s t : σ)
    (h0 : f s 0 = some t) (h1 : f t 1 = none) :
    [0, 1].foldlM f s = none := by
  rw [List.foldlM_cons, h0]
  show List.foldlM f t [1] = none
  rw [List.foldlM_cons, h1]
  rfl

/-! ## Counts only grow -/

theorem load_some_bounds (a : List Int) (k v : Int) (h : load a k = some v) :
    0 ≤ k ∧ k < (a.length : Int) ∧ a.getD k.toNat 0 = v := by
  by_cases hb : 0 ≤ k ∧ k < (a.length : Int)
  · rw [load_of_lt a 0 k hb.1 hb.2] at h
    exact ⟨hb.1, hb.2, Option.some.inj h⟩
  · rw [load_eq_none a k (by omega)] at h
    exact Option.noConfusion h

theorem load_le_of_getD_le (a a' : List Int) (hl : a'.length = a.length)
    (hm : ∀ k : Nat, a.getD k 0 ≤ a'.getD k 0) (k v : Int)
    (h : load a k = some v) : ∃ v', load a' k = some v' ∧ v ≤ v' := by
  obtain ⟨h0, h1, hv⟩ := load_some_bounds a k v h
  refine ⟨a'.getD k.toNat 0, load_of_lt a' 0 k h0 (by omega), ?_⟩
  rw [← hv]
  exact hm k.toNat

theorem incr_mono (a a' : List Int) (i : Int) (h : incr a i = some a') :
    ∀ k : Nat, a.getD k 0 ≤ a'.getD k 0 := by
  by_cases hb : 0 ≤ i ∧ i < (a.length : Int)
  · obtain ⟨a'', e, _, p⟩ := incr_spec a i hb.1 hb.2
    rw [e] at h
    cases h
    intro k
    rw [p k]
    split <;> omega
  · rw [incr_none a i (by omega)] at h
    exact Option.noConfusion h

theorem count_step_rel (R : List Int → List Int → Prop) (hrefl : ∀ a, R a a)
    (htrans : ∀ a b c, R a b → R b c → R a c)
    (hincr : ∀ a a' i, incr a i = some a' → R a a')
    (word : List Int) (n W : Int) (t t' : List Int × List Int) (i : Nat)
    (h : count_step word n W t i = some t') : R t.1 t'.1 ∧ R t.2 t'.2 := by
  unfold count_step at h
  cases hx : load word (i : Int) with
  | none => rw [hx] at h; exact Option.noConfusion h
  | some x =>
    rw [hx, Option.some_bind] at h
    cases hy : load word ((i : Int) + 1) with
    | none => rw [hy] at h; exact Option.noConfusion h
    | some y =>
      rw [hy, Option.some_bind] at h
      have hmid : ∀ t1, (if x < W ∧ y < W then
            (incr t.1 (index_2d x y W W)).bind (fun tc =>
            (incr t.2 x).bind (fun cc => some (tc, cc)))
          else some t) = some t1 → R t.1 t1.1 ∧ R t.2 t1.2 := by
        intro t1 h1
        split at h1
        · cases ha : incr t.1 (index_2d x y W W) with
          | none => rw [ha] at h1; exact Option.noConfusion h1
          | some tc =>
            rw [ha, Option.some_bind] at h1
            cases hb : incr t.2 x with
            | none => rw [hb] at h1; exact Option.noConfusion h1
            | some cc =>
              rw [hb, Option.some_bind] at h1
              cases h1
              exact ⟨hincr _ _ _ ha, hincr _ _ _ hb⟩
        · cases h1
          exact ⟨hrefl _, hrefl _⟩
      cases hm : (if x < W ∧ y < W then
            (incr t.1 (index_2d x y W W)).bind (fun tc =>
            (incr t.2 x).bind (fun cc => some (tc, cc)))
          else some t) with
      | none => rw [hm] at h; exact Option.noConfusion h
      | some t1 =>
        rw [hm, Option.some_bind] at h
        obtain ⟨k1, k2⟩ := hmid t1 hm
        split at h
        · cases hc : incr t1.2 y with
          | none => rw [hc] at h; exact Option.noConfusion h
          | some cc =>
            rw [hc, Option.some_bind] at h
            cases h
            exact ⟨k1, htrans _ _ _ k2 (hincr _ _ _ hc)⟩
        · cases h
          exact ⟨k1, k2⟩

theorem count_word_transitions_mono (word : List Int) (n W : Int)
    (tc cc : List Int) (t : List Int × List Int)
    (h : count_word_transitions word n W tc cc = some t) :
    (∀ k : Nat, tc.getD k 0 ≤ t.1.getD k 0) ∧
    (∀ k : Nat, cc.getD k 0 ≤ t.2.getD k 0) := by
  unfold count_word_transitions at h
  exact foldlM_preserves (count_step word n W)
    (fun t => (∀ k : Nat, tc.getD k 0 ≤ t.1.getD k 0) ∧
      (∀ k : Nat, cc.getD k 0 ≤ t.2.getD k 0))
    (fun a i a' ha hq => by
      obtain ⟨k1, k2⟩ := count_step_rel
        (fun a b => ∀ k : Nat, a.getD k 0 ≤ b.getD k 0)
        (fun _ _ => le_refl _) (fun _ _ _ h1 h2 k => le_trans (h1 k) (h2 k))
        incr_mono word n W a a' i ha
      exact ⟨fun k => le_trans (hq.1 k) (k1 k), fun k => le_trans (hq.2 k) (k2 k)⟩)
    _ _ t h ⟨fun _ => le_refl _, fun _ => le_refl _⟩

theorem train_counts_nonneg (W : Int) (lines : List (List Int))
    (c : LanguageClassifier) (h : train lines W = some c) :
    (∀ k : Nat, 0 ≤ c.transition_counts.getD k 0) ∧
    (∀ k : Nat, 0 ≤ c.character_counts.getD k 0) := by
  unfold train for_line_in_file at h
  refine foldlM_preserves
    (fun ctx line => build_classifier_from_line line (line.length : Int) ctx)
    (fun c => (∀ k : Nat, 0 ≤ c.transition_counts.getD k 0) ∧
      (∀ k : Nat, 0 ≤ c.character_counts.getD k 0))
    ?_ lines (calloc_classifier W) c h ?_
  · intro s line s' hs ⟨q1, q2⟩
    beta_reduce at hs
    unfold build_classifier_from_line at hs
    cases ht : count_word_transitions line ((line.length : Int) - 1) s.alphabet_width
        s.transition_counts s.character_counts with
    | none => rw [ht] at hs; exact Option.noConfusion hs
    | some t =>
      rw [ht, Option.some_bind] at hs
      cases hs
      obtain ⟨m1, m2⟩ := count_word_transitions_mono _ _ _ _ _ t ht
      exact ⟨fun k => le_trans (q1 k) (m1 k), fun k => le_trans (q2 k) (m2 k)⟩
  · constructor
    · intro k
      simp only [calloc_classifier]
      rw [getD_replicate_zero]
    · intro k
      simp only [calloc_classifier]
      rw [getD_replicate_zero]

/-! ## Totals of the count tables -/

theorem sum_countP_eq (N m : Nat) (f : Nat → Int)
    (hf : ∀ i : Nat, i < m → 0 ≤ f i ∧ f i < (N : Int)) :
    ∑ k ∈ Finset.range N,
      (List.range m).countP (fun (i : Nat) => decide ((k : Int) = f i)) = m := by
  induction m with
  | zero => simp
  | succ m ih =>
    have hm := hf m (Nat.lt_succ_self m)
    have hone : ∑ k ∈ Finset.range N,
        (if decide ((k : Int) = f m) = true then 1 else 0) = 1 := by
      have hc : ∀ k ∈ Finset.range N,
          (if decide ((k : Int) = f m) = true then 1 else 0) =
            if k = (f m).toNat then 1 else 0 := by
        intro k _
        by_cases hk : (k : Int) = f m
        · have : k = (f m).toNat := by omega
          rw [if_pos (decide_eq_true hk), if_pos this]
        · have : ¬ k = (f m).toNat := by omega
          rw [if_neg (by simpa using hk), if_neg this]
      rw [Finset.sum_congr rfl hc, Finset.sum_ite_eq']
      rw [if_pos (by rw [Finset.mem_range]; omega)]
    have hsplit : ∀ k ∈ Finset.range N,
        (List.range (m + 1)).countP (fun (i : Nat) => decide ((k : Int) = f i)) =
          (List.range m).countP (fun (i : Nat) => decide ((k : Int) = f i)) +
            (if decide ((k : Int) = f m) = true then 1 else 0) := by
      intro k _
      rw [countP_range_succ]
    rw [Finset.sum_congr rfl hsplit, Finset.sum_add_distrib,
      ih (fun i hi => hf i (Nat.lt_succ_of_lt hi)), hone]

theorem list_sum_eq_sum_getD (a : List Int) :
    a.sum = ∑ k ∈ Finset.range a.length, a.getD k 0 := by
  induction a with
  | nil => simp
  | cons x l ih =>
    rw [List.sum_cons, List.length_cons, Finset.sum_range_succ', ih, add_comm]
    congr 1

theorem sum_range_list_sum (N : Nat) (lines : List (List Int))
    (g : List Int → Nat → Nat) :
    ∑ k ∈ Finset.range N, (lines.map (fun l => g l k)).sum =
      (lines.map (fun l => ∑ k ∈ Finset.range N, g l k)).sum := by
  induction lines with
  | nil => simp
  | cons l rest ih =>
    simp only [List.map_cons, List.sum_cons]
    rw [Finset.sum_add_distrib, ih]

theorem sum_pair_hits (word : List Int) (len : Int) (n : Nat)
    (hw : in_alphabet word len (n : Int)) :
    ∑ k ∈ Finset.range (n * n), pair_hits word len (n : Int) k = (len - 1).toNat := by
  unfold pair_hits
  apply sum_countP_eq (n * n) (len - 1).toNat
    (fun i => index_2d (word.getD i 0) (word.getD (i + 1) 0) (n : Int) (n : Int))
  intro i hi
  have ha := in_alphabet_getD hw i (by omega)
  have hb := in_alphabet_getD hw (i + 1) (by push_cast; omega)
  refine ⟨index_2d_nonneg _ _ _ ha.1 hb.1 (by omega), ?_⟩
  have := index_2d_lt (n : Int) _ _ ha.2 hb.2 (by omega)
  push_cast
  exact this

theorem sum_char_hits (word : List Int) (len : Int) (n : Nat)
    (hw : in_alphabet word len (n : Int)) :
    ∑ k ∈ Finset.range n, char_hits word len k =
      if 2 ≤ len then len.toNat else 0 := by
  by_cases h2 : 2 ≤ len
  · rw [if_pos h2]
    have hc : ∀ k ∈ Finset.range n, char_hits word len k =
        (List.range len.toNat).countP
          (fun (i : Nat) => decide ((k : Int) = word.getD i 0)) := by
      intro k _
      rw [char_hits_eq_occurrences word len k h2 hw.1]
      unfold occurrences
      exact count_take_eq_countP word (k : Int) len.toNat (by have := hw.1; omega)
    rw [Finset.sum_congr rfl hc]
    exact sum_countP_eq n len.toNat (fun i => word.getD i 0)
      (fun i hi => in_alphabet_getD hw i (by omega))
  · rw [if_neg h2]
    apply Finset.sum_eq_zero
    intro k _
    exact char_hits_eq_zero word len k (by omega)

theorem sum_map_add_countP (lines : List (List Int)) (A B : List Int → Nat)
    (p : List Int → Bool)
    (h : ∀ l ∈ lines, A l = B l + if p l = true then 1 else 0) :
    (lines.map A).sum = (lines.map B).sum + lines.countP p := by
  induction lines with
  | nil => simp
  | cons l rest ih =>
    rw [List.map_cons, List.sum_cons, List.map_cons, List.sum_cons, List.countP_cons,
      h l (List.mem_cons_self _ _), ih (fun l' hm => h l' (List.mem_cons_of_mem _ hm))]
    ring

theorem for_line_in_file_short (lines : List (List Int))
    (hs : ∀ line ∈ lines, (line.length : Int) - 1 ≤ 1) (c0 : LanguageClassifier) :
    for_line_in_file lines build_classifier_from_line c0 = some c0 := by
  unfold for_line_in_file
  induction lines with
  | nil => rfl
  | cons line rest ih =>
    have hb : build_classifier_from_line line (line.length : Int) c0 = some c0 := by
      unfold build_classifier_from_line count_word_transitions
      have h0 : ((line.length : Int) - 1 - 1).toNat = 0 := by
        have := hs line (List.mem_cons_self _ _)
        omega
      rw [h0]
      rfl
    rw [List.foldlM_cons, hb]
    exact ih (fun l hm => hs l (List.mem_cons_of_mem _ hm))

/-! ## Frequencies of a trained classifier -/

theorem create_parts (lines : List (List Int)) (W : Int) (m : LanguageClassifier)
    (h : create_language_classifier lines W = some m) :
    ∃ c tf cf, train lines W = some c ∧
      convert_transition_counts_to_freqs c.transition_counts c.alphabet_width
        c.transition_frequencies = some tf ∧
      convert_character_counts_to_freqs c.character_counts c.alphabet_width
        c.character_frequencies = some cf ∧
      m = { c with transition_frequencies := tf, character_frequencies := cf } := by
  unfold create_language_classifier at h
  cases hc : train lines W with
  | none => rw [hc] at h; exact Option.noConfusion h
  | some c =>
    rw [hc, Option.some_bind] at h
    cases ht : convert_transition_counts_to_freqs c.transition_counts c.alphabet_width
        c.transition_frequencies with
    | none => rw [ht] at h; exact Option.noConfusion h
    | some tf =>
      rw [ht, Option.some_bind] at h
      cases hf : convert_character_counts_to_freqs c.character_counts c.alphabet_width
          c.character_frequencies with
      | none => rw [hf] at h; exact Option.noConfusion h
      | some cf =>
        rw [hf, Option.some_bind] at h
        exact ⟨c, tf, cf, rfl, ht, hf, (Option.some.inj h).symm⟩

theorem trained_transition_frequencies (n : Nat) (lines : List (List Int))
    (c : LanguageClassifier) (tf : List ℚ)
    (e : train lines (n : Int) = some c)
    (e1 : convert_transition_counts_to_freqs c.transition_counts c.alphabet_width
      c.transition_frequencies = some tf) :
    c.alphabet_width = (n : Int) ∧
    tf.length = n * n ∧
    ∀ x j : Nat, j < n →
      0 ≤ tf.getD (x * n + j) 0 ∧ tf.getD (x * n + j) 0 ≤ 1 := by
  obtain ⟨w, f1, _, m1, _⟩ := train_shape _ lines c e
  obtain ⟨nn, _⟩ := train_counts_nonneg _ lines c e
  have hnn : ((n : Int) * (n : Int)).toNat = n * n := by
    have : ((n * n : Nat) : Int) = (n : Int) * (n : Int) := by push_cast; ring
    omega
  have hc : c.transition_counts.length = n * n := by rw [m1, hnn]
  have hf : c.transition_frequencies.length = n * n := by
    rw [f1, List.length_replicate, hnn]
  obtain ⟨tf', e2, l2, p⟩ := convert_transition_counts_to_freqs_spec n
    c.transition_counts c.transition_frequencies hc hf
  rw [w, e2] at e1
  have htf : tf' = tf := Option.some.inj e1
  subst htf
  refine ⟨w, by rw [l2, hf], ?_⟩
  intro x j hj
  rw [p x j hj]
  split
  · rename_i hpos
    have hterm : ∀ l ∈ Finset.range n,
        (0 : ℚ) ≤ ((c.transition_counts.getD (x * n + l) 0 : Int) : ℚ) := by
      intro l _
      exact_mod_cast nn (x * n + l)
    have hle := Finset.single_le_sum hterm (Finset.mem_range.mpr hj)
    exact ⟨div_nonneg (hterm j (Finset.mem_range.mpr hj)) hpos.2.le,
      (div_le_one hpos.2).mpr hle⟩
  · rw [f1, getD_replicate_zero]
    exact ⟨le_refl _, zero_le_one⟩

theorem transition_sum_bounds (m : LanguageClassifier) (n : Nat)
    (buf : List Int) (len : Int) (w : m.alphabet_width = (n : Int))
    (hcell : ∀ x j : Nat, j < n →
      0 ≤ m.transition_frequencies.getD (x * n + j) 0 ∧
      m.transition_frequencies.getD (x * n + j) 0 ≤ 1) :
    0 ≤ transition_sum m buf len ∧
    transition_sum m buf len ≤ 100 * (((len - 1).toNat : Nat) : ℚ) := by
  unfold transition_sum
  rw [Finset.sum_filter, w]
  have hterm : ∀ i ∈ Finset.range (len - 1).toNat,
      0 ≤ (if (0 ≤ buf.getD i 0 ∧ buf.getD i 0 < (n : Int)) ∧
          (0 ≤ buf.getD (i + 1) 0 ∧ buf.getD (i + 1) 0 < (n : Int))
        then 100 * entry m.transition_frequencies
          (index_2d (buf.getD i 0) (buf.getD (i + 1) 0) (n : Int) (n : Int))
        else 0) ∧
      (if (0 ≤ buf.getD i 0 ∧ buf.getD i 0 < (n : Int)) ∧
          (0 ≤ buf.getD (i + 1) 0 ∧ buf.getD (i + 1) 0 < (n : Int))
        then 100 * entry m.transition_frequencies
          (index_2d (buf.getD i 0) (buf.getD (i + 1) 0) (n : Int) (n : Int))
        else 0) ≤ (100 : ℚ) := by
    intro i _
    split
    · rename_i hin
      obtain ⟨a, ha⟩ : ∃ a : Nat, buf.getD i 0 = (a : Int) :=
        ⟨(buf.getD i 0).toNat, by omega⟩
      obtain ⟨b, hb⟩ : ∃ b : Nat, buf.getD (i + 1) 0 = (b : Int) :=
        ⟨(buf.getD (i + 1) 0).toNat, by omega⟩
      rw [ha, hb, entry_index_natCast]
      have hc := hcell a b (by omega)
      constructor
      · linarith [hc.1]
      · linarith [hc.2]
    · exact ⟨le_refl _, by norm_num⟩
  constructor
  · exact Finset.sum_nonneg (fun i hi => (hterm i hi).1)
  · calc _ ≤ ∑ _i ∈ Finset.range (len - 1).toNat, (100 : ℚ) :=
          Finset.sum_le_sum (fun i hi => (hterm i hi).2)
      _ = 100 * (((len - 1).toNat : Nat) : ℚ) := by
          rw [Finset.sum_const, Finset.card_range, nsmul_eq_mul, mul_comm]

theorem load_some_getD {α : Type} (a : List α) (d : α) (k : Int) (v : α)
    (h : load a k = some v) :
    0 ≤ k ∧ k < (a.length : Int) ∧ a.getD k.toNat d = v := by
  by_cases hb : 0 ≤ k ∧ k < (a.length : Int)
  · rw [load_of_lt a d k hb.1 hb.2] at h
    exact ⟨hb.1, hb.2, Option.some.inj h⟩
  · rw [load_eq_none a k (by omega)] at h
    exact Option.noConfusion h

theorem natCast_toNat_sub_one (n : Int) (hn : 1 ≤ n) :
    (((n - 1).toNat : Nat) : ℚ) = (n : ℚ) - 1 := by
  have h : (((n - 1).toNat : Nat) : Int) = n - 1 := Int.toNat_of_nonneg (by omega)
  have h2 : (((((n - 1).toNat : Nat) : Int)) : ℚ) = ((n - 1 : Int) : ℚ) := by rw [h]
  push_cast at h2
  exact h2

/-! ## Bounds on the frequency score -/

theorem sum_occurrences (buf : List Int) (n : Int) (w : Nat)
    (hbuf : in_alphabet buf n (w : Int)) :
    ∑ i ∈ Finset.range w, occurrences buf n (i : Int) = n.toNat := by
  have hc : ∀ k ∈ Finset.range w, occurrences buf n (k : Int) =
      (List.range n.toNat).countP
        (fun (i : Nat) => decide ((k : Int) = buf.getD i 0)) := by
    intro k _
    unfold occurrences
    exact count_take_eq_countP buf (k : Int) n.toNat (by have := hbuf.1; omega)
  rw [Finset.sum_congr rfl hc]
  exact sum_countP_eq w n.toNat (fun i => buf.getD i 0)
    (fun i hi => in_alphabet_getD hbuf i (by omega))

theorem sum_buffer_frequency (buf : List Int) (n : Int) (w : Nat) (hn : 1 ≤ n)
    (hbuf : in_alphabet buf n (w : Int)) :
    ∑ i ∈ Finset.range w, buffer_frequency buf n (i : Int) = 1 := by
  unfold buffer_frequency
  rw [← Finset.sum_div, ← Nat.cast_sum, sum_occurrences buf n w hbuf]
  have h : ((n.toNat : Nat) : ℚ) = (n : ℚ) := by
    have h1 : ((n.toNat : Nat) : Int) = n := Int.toNat_of_nonneg (by omega)
    exact_mod_cast h1
  rw [h]
  exact div_self (by exact_mod_cast (by omega : n ≠ 0))

theorem buffer_frequency_nonneg (buf : List Int) (n : Int) (i : Int) (hn : 1 ≤ n) :
    0 ≤ buffer_frequency buf n i := by
  unfold buffer_frequency
  apply div_nonneg (Nat.cast_nonneg _)
  exact_mod_cast (by omega : (0 : Int) ≤ n)

theorem buffer_frequency_first_pos (buf : List Int) (n : Int) (hn : 1 ≤ n)
    (hlen : n ≤ (buf.length : Int)) :
    0 < buffer_frequency buf n (buf.getD 0 0) := by
  unfold buffer_frequency occurrences
  apply div_pos
  · rw [count_take_eq_countP buf _ n.toNat (by omega)]
    have : 0 < (List.range n.toNat).countP
        (fun (i : Nat) => decide (buf.getD 0 0 = buf.getD i 0)) := by
      rw [List.countP_pos_iff]
      exact ⟨0, by rw [List.mem_range]; omega, by simp⟩
    exact_mod_cast this
  · exact_mod_cast (by omega : (0 : Int) < n)

theorem frequency_distance_bounds (m : LanguageClassifier) (buf : List Int)
    (n : Int) (w : Nat) (hw : m.alphabet_width = (w : Int)) (hn : 1 ≤ n)
    (hbuf : in_alphabet buf n (w : Int))
    (hnonneg : ∀ i : Nat, i < w → 0 ≤ entry m.character_frequencies (i : Int))
    (hsum : ∑ i ∈ Finset.range w, entry m.character_frequencies (i : Int) = 1) :
    0 ≤ frequency_distance m buf n ∧ frequency_distance m buf n < 2 := by
  unfold frequency_distance
  rw [Finset.sum_filter, hw, Int.toNat_natCast]
  constructor
  · apply Finset.sum_nonneg
    intro i _
    split
    · exact abs_nonneg _
    · exact le_refl _
  · have htwo : ∑ i ∈ Finset.range w, (entry m.character_frequencies (i : Int) +
        buffer_frequency buf n (i : Int)) = 2 := by
      rw [Finset.sum_add_distrib, hsum, sum_buffer_frequency buf n w hn hbuf]
      norm_num
    rw [← htwo]
    apply Finset.sum_lt_sum
    · intro i hi
      have hp := hnonneg i (Finset.mem_range.mp hi)
      have hq := buffer_frequency_nonneg buf n (i : Int) hn
      split
      · rw [abs_le]
        constructor <;> linarith
      · linarith
    · have hfirst := in_alphabet_getD hbuf 0 (by push_cast; omega)
      refine ⟨(buf.getD 0 0).toNat, by rw [Finset.mem_range]; omega, ?_⟩
      have hcast : (((buf.getD 0 0).toNat : Nat) : Int) = buf.getD 0 0 :=
        Int.toNat_of_nonneg hfirst.1
      rw [hcast]
      have hq := buffer_frequency_first_pos buf n hn hbuf.1
      have hp : 0 ≤ entry m.character_frequencies (buf.getD 0 0) := by
        have := hnonneg (buf.getD 0 0).toNat (by omega)
        rw [hcast] at this
        exact this
      split
      · rename_i hboth
        rw [abs_lt]
        constructor <;> linarith [hboth.1]
      · linarith

theorem frequency_distance_eq_zero (m : LanguageClassifier) (buf : List Int)
    (n : Int)
    (heq : ∀ i : Nat, (i : Int) < m.alphabet_width →
      entry m.character_frequencies (i : Int) = buffer_frequency buf n (i : Int)) :
    frequency_distance m buf n = 0 := by
  unfold frequency_distance
  apply Finset.sum_eq_zero
  intro i hi
  rw [Finset.mem_filter, Finset.mem_range] at hi
  rw [heq i (by omega), sub_self, abs_zero]

theorem trained_character_frequencies (n : Nat) (hn : 0 < n)
    (lines : List (List Int)) (m : LanguageClassifier)
    (h : create_language_classifier lines (n : Int) = some m) :
    m.alphabet_width = (n : Int) ∧
    m.character_frequencies.length = n ∧
    (∀ i : Nat, i < n → 0 ≤ entry m.character_frequencies (i : Int)) ∧
    ∑ i ∈ Finset.range n, entry m.character_frequencies (i : Int) = 1 := by
  obtain ⟨c, tf, cf, e, _, e2, rfl⟩ := create_parts lines _ m h
  obtain ⟨w, _, f2, _, m2⟩ := train_shape _ lines c e
  obtain ⟨_, nn⟩ := train_counts_nonneg _ lines c e
  have hc : c.character_counts.length = n := by rw [m2, Int.toNat_natCast]
  have hf : c.character_frequencies.length = n := by
    rw [f2, List.length_replicate, Int.toNat_natCast]
  rw [w] at e2
  have hterm : ∀ i ∈ Finset.range n,
      (0 : ℚ) ≤ ((c.character_counts.getD i 0 : Int) : ℚ) := by
    intro i _
    exact_mod_cast nn i
  have hne : ∑ i ∈ Finset.range n, ((c.character_counts.getD i 0 : Int) : ℚ) ≠ 0 := by
    intro hz
    rw [convert_character_counts_to_freqs_none n c.character_counts _ hc hn hz] at e2
    exact Option.noConfusion e2
  have hpos : 0 < ∑ i ∈ Finset.range n, ((c.character_counts.getD i 0 : Int) : ℚ) :=
    lt_of_le_of_ne (Finset.sum_nonneg hterm) (Ne.symm hne)
  obtain ⟨cf', e3, l3, p⟩ := convert_character_counts_to_freqs_spec n
    c.character_counts c.character_frequencies hc hf hne
  rw [e3] at e2
  cases e2
  have hcell : ∀ i ∈ Finset.range n, entry cf (i : Int) =
      ((c.character_counts.getD i 0 : Int) : ℚ) /
        ∑ i ∈ Finset.range n, ((c.character_counts.getD i 0 : Int) : ℚ) := by
    intro i hi
    rw [entry_natCast, p i (Finset.mem_range.mp hi)]
  refine ⟨w, by rw [l3, hf], ?_, ?_⟩
  · intro i hi
    show 0 ≤ entry cf (i : Int)
    rw [hcell i (Finset.mem_range.mpr hi)]
    exact div_nonneg (hterm i (Finset.mem_range.mpr hi)) hpos.le
  · show ∑ i ∈ Finset.range n, entry cf (i : Int) = 1
    rw [Finset.sum_congr rfl hcell, ← Finset.sum_div, div_self hne]

/-! ## The claims -/

/-- C1: on a word whose symbols all lie in `[0, W)`, `count_word_transitions`
returns, adds to the cell `x*W + y` of `transition_counts` the number of
positions `i < word_length - 1` with `word[i] = x` and `word[i+1] = y`, changes no
cell that is the cell of no adjacent pair of the word and keeps the size of the
table; hence training from the zero-filled tables leaves in the cell `x*W + y`
the number of times `x` was immediately followed by `y` in the training lines. -/
theorem count_word_transitions_transition_counts :
    (∀ (W : Int) (tc cc word : List Int) (word_length : Int),
      0 < W → (tc.length : Int) = W * W → (cc.length : Int) = W →
      in_alphabet word word_length W →
      ∃ tc' cc', count_word_transitions word word_length W tc cc = some (tc', cc') ∧
        tc'.length = tc.length ∧
        (∀ x y : Int, 0 ≤ x → x < W → 0 ≤ y → y < W →
          ∃ v, load tc (index_2d x y W W) = some v ∧
            load tc' (index_2d x y W W) =
              some (v + (transitions word word_length x y : Nat))) ∧
        (∀ k : Int,
          (∀ x y : Int, 0 < transitions word word_length x y →
            index_2d x y W W ≠ k) →
          load tc' k = load tc k)) ∧
    (∀ (W : Int) (lines : List (List Int)), 0 < W →
      (∀ line ∈ lines, in_alphabet line ((line.length : Int) - 1) W) →
      ∃ c, train lines W = some c ∧
        ∀ x y : Int, 0 ≤ x → x < W → 0 ≤ y → y < W →
          load c.transition_counts (index_2d x y W W) =
            some (((lines.map
              (fun l => transitions l ((l.length : Int) - 1) x y)).sum : Nat) : Int)) := by
  constructor
  · intro W tc cc word n hW h1 h2 hw
    obtain ⟨t', e, l1, _, p1, _⟩ := count_word_transitions_hits word n W tc cc hw h1 h2
    refine ⟨t'.1, t'.2, e, l1, ?_, ?_⟩
    · intro x y hx0 hx hy0 hy
      have i0 := index_2d_nonneg W x y hx0 hy0 hW.le
      have i1 := index_2d_lt W x y hx hy hW.le
      refine ⟨tc.getD (index_2d x y W W).toNat 0,
        load_of_lt tc 0 _ i0 (by omega), ?_⟩
      rw [load_of_lt t'.1 0 _ i0 (by omega), p1,
        pair_hits_eq_transitions word n W x y hw hx0 hy0 hy]
    · intro k hk
      apply load_eq_of_getD_eq tc t'.1 k l1
      intro hk0
      rw [p1, pair_hits_eq_zero word n W k.toNat, Nat.cast_zero, add_zero]
      intro i hi
      rw [Int.toNat_of_nonneg hk0]
      exact hk _ _ (transitions_pos word n i hi hw.1)
  · intro W lines hW hl
    obtain ⟨c, e, _, _, _, m1, _, q1, _⟩ := train_spec W hW.le lines hl
    refine ⟨c, e, ?_⟩
    intro x y hx0 hx hy0 hy
    have i0 := index_2d_nonneg W x y hx0 hy0 hW.le
    have i1 := index_2d_lt W x y hx hy hW.le
    rw [load_of_lt c.transition_counts 0 _ i0 (by omega), q1]
    congr 3
    apply List.map_congr_left
    intro l hm
    exact pair_hits_eq_transitions l _ W x y (hl l hm) hx0 hy0 hy

/-- Witness of C1: the word `0 1 1 2 1 1` over the alphabet of width 3, counted
into the zero-filled tables. -/
theorem count_word_transitions_transition_counts_witness :
    ((0 : Int) < 3 ∧ ((List.replicate 9 (0 : Int)).length : Int) = 3 * 3 ∧
      ((List.replicate 3 (0 : Int)).length : Int) = 3 ∧
      in_alphabet [0, 1, 1, 2, 1, 1] 6 3) ∧
    ∃ tc' cc', count_word_transitions [0, 1, 1, 2, 1, 1] 6 3
        (List.replicate 9 0) (List.replicate 3 0) = some (tc', cc') ∧
      load tc' (index_2d 1 1 3 3) = some 2 := by
  refine ⟨⟨by decide, by decide, by decide, by decide⟩, ?_⟩
  obtain ⟨tc', cc', e, _, h, _⟩ := count_word_transitions_transition_counts.1 3
    (List.replicate 9 0) (List.replicate 3 0) [0, 1, 1, 2, 1, 1] 6
    (by decide) (by decide) (by decide) (by decide)
  obtain ⟨v, hv, hv'⟩ := h 1 1 (by decide) (by decide) (by decide) (by decide)
  refine ⟨tc', cc', e, ?_⟩
  have hv0 : v = 0 := by
    have : load (List.replicate 9 (0 : Int)) (index_2d 1 1 3 3) = some 0 := by decide
    rw [this] at hv
    exact (Option.some.inj hv).symm
  rw [hv', hv0]
  decide

/-- C2: on a line of at least two symbols, all of them in `[0, W)`,
`count_word_transitions` returns and adds to `character_counts[c]` the number of
occurrences of `c` among the symbols of the line, for every `c` in `[0, W)`;
training with width 256 on the lines `hello` and `world` (each followed by a
line feed) gives `character_counts['l'] = 3`. -/
theorem count_word_transitions_character_counts :
    (∀ (W : Int) (tc cc word : List Int) (word_length : Int),
      (tc.length : Int) = W * W → (cc.length : Int) = W → 2 ≤ word_length →
      in_alphabet word word_length W →
      ∃ tc' cc', count_word_transitions word word_length W tc cc = some (tc', cc') ∧
        cc'.length = cc.length ∧
        ∀ c : Int, 0 ≤ c → c < W →
          ∃ v, load cc c = some v ∧
            load cc' c = some (v + (occurrences word word_length c : Nat))) ∧
    (∃ m, train [[104, 101, 108, 108, 111, 10], [119, 111, 114, 108, 100, 10]] 256
        = some m ∧
      load m.character_counts 108 = some 3) := by
  constructor
  · intro W tc cc word n h1 h2 hn hw
    obtain ⟨t', e, _, l2, _, p2⟩ := count_word_transitions_hits word n W tc cc hw h1 h2
    refine ⟨t'.1, t'.2, e, l2, ?_⟩
    intro c hc0 hc
    refine ⟨cc.getD c.toNat 0, load_of_lt cc 0 c hc0 (by omega), ?_⟩
    rw [load_of_lt t'.2 0 c hc0 (by omega), p2,
      char_hits_eq_occurrences word n c.toNat hn hw.1, Int.toNat_of_nonneg hc0]
  · obtain ⟨c, e, _, _, _, _, m2, _, q2⟩ := train_spec 256 (by decide)
      [[104, 101, 108, 108, 111, 10], [119, 111, 114, 108, 100, 10]] (by decide)
    refine ⟨c, e, ?_⟩
    rw [load_of_lt c.character_counts 0 108 (by decide) (by omega)]
    have h := q2 108
    rw [show (108 : Int).toNat = 108 from rfl, h]
    decide

/-- Witness of C2: the line `1 0 1` over the alphabet of width 2. -/
theorem count_word_transitions_character_counts_witness :
    (((List.replicate 4 (0 : Int)).length : Int) = 2 * 2 ∧
      ((List.replicate 2 (0 : Int)).length : Int) = 2 ∧ (2 : Int) ≤ 3 ∧
      in_alphabet [1, 0, 1] 3 2) ∧
    ∃ tc' cc', count_word_transitions [1, 0, 1] 3 2
        (List.replicate 4 0) (List.replicate 2 0) = some (tc', cc') ∧
      load cc' 1 = some 2 := by
  refine ⟨⟨by decide, by decide, by decide, by decide⟩, ?_⟩
  obtain ⟨tc', cc', e, _, h⟩ := count_word_transitions_character_counts.1 2
    (List.replicate 4 0) (List.replicate 2 0) [1, 0, 1] 3
    (by decide) (by decide) (by decide) (by decide)
  obtain ⟨v, hv, hv'⟩ := h 1 (by decide) (by decide)
  refine ⟨tc', cc', e, ?_⟩
  have hv0 : v = 0 := by
    have : load (List.replicate 2 (0 : Int)) 1 = some 0 := by decide
    rw [this] at hv
    exact (Option.some.inj hv).symm
  rw [hv', hv0]
  decide

/-- C3: for every trained model (the tables zero-filled, the counts accumulated
by `count_word_transitions` line after line), `convert_transition_counts_to_freqs`
returns, and in the table it returns every row `x` of `[0, W)` sums to exactly 1
when row `x` of `transition_counts` has a positive sum, and is zero in every
entry otherwise; this table is the `transition_frequencies` of the classifier
that `create_language_classifier` builds. -/
theorem transition_frequencies_rows (W : Int) (lines : List (List Int))
    (c : LanguageClassifier) (htrain : train lines W = some c) :
    ∃ tf, convert_transition_counts_to_freqs c.transition_counts c.alphabet_width
        c.transition_frequencies = some tf ∧
      tf.length = (W * W).toNat ∧
      (∀ m, create_language_classifier lines W = some m →
        m.transition_frequencies = tf ∧
        m.transition_counts = c.transition_counts) ∧
      ∀ x : Int, 0 ≤ x → x < W →
        (0 < ∑ j ∈ Finset.range W.toNat,
            entry c.transition_counts (index_2d x j W W) →
          ∑ j ∈ Finset.range W.toNat, entry tf (index_2d x j W W) = 1) ∧
        (¬ 0 < ∑ j ∈ Finset.range W.toNat,
            entry c.transition_counts (index_2d x j W W) →
          ∀ j : Int, 0 ≤ j → j < W → load tf (index_2d x j W W) = some 0) := by
  obtain ⟨w, f1, _, m1, _⟩ := train_shape W lines c htrain
  have hcreate : ∀ tf, convert_transition_counts_to_freqs c.transition_counts
      c.alphabet_width c.transition_frequencies = some tf →
      ∀ m, create_language_classifier lines W = some m →
        m.transition_frequencies = tf ∧
        m.transition_counts = c.transition_counts := by
    intro tf e2 m hm
    unfold create_language_classifier at hm
    rw [htrain, Option.some_bind, e2, Option.some_bind] at hm
    cases h : convert_character_counts_to_freqs c.character_counts c.alphabet_width
        c.character_frequencies with
    | none => rw [h] at hm; exact Option.noConfusion hm
    | some cf =>
      rw [h, Option.some_bind] at hm
      cases hm
      exact ⟨rfl, rfl⟩
  by_cases hW : 0 ≤ W
  · obtain ⟨n, rfl⟩ : ∃ n : Nat, W = (n : Int) := ⟨W.toNat, by omega⟩
    have hnn : ((n : Int) * (n : Int)).toNat = n * n := by
      have : ((n * n : Nat) : Int) = (n : Int) * (n : Int) := by push_cast; ring
      omega
    have hc : c.transition_counts.length = n * n := by rw [m1, hnn]
    have hf : c.transition_frequencies.length = n * n := by
      rw [f1, List.length_replicate, hnn]
    obtain ⟨tf, e2, l2, p⟩ := convert_transition_counts_to_freqs_spec n
      c.transition_counts c.transition_frequencies hc hf
    rw [← w] at e2
    refine ⟨tf, e2, by rw [l2, hf, hnn], hcreate tf e2, ?_⟩
    intro x hx0 hx
    obtain ⟨i, rfl⟩ : ∃ i : Nat, x = (i : Int) := ⟨x.toNat, by omega⟩
    have hi : i < n := by omega
    rw [Int.toNat_natCast]
    have hsum : ((∑ j ∈ Finset.range n,
        entry c.transition_counts
          (index_2d (i : Int) (j : Int) (n : Int) (n : Int)) : Int) : ℚ)
        = ∑ l ∈ Finset.range n, ((c.transition_counts.getD (i * n + l) 0 : Int) : ℚ) := by
      rw [Int.cast_sum]
      apply Finset.sum_congr rfl
      intro l _
      rw [entry_index_natCast]
    constructor
    · intro hpos
      have hpos' : 0 < ∑ l ∈ Finset.range n,
          ((c.transition_counts.getD (i * n + l) 0 : Int) : ℚ) := by
        rw [← hsum]; exact_mod_cast hpos
      have hcell : ∀ j ∈ Finset.range n,
          entry tf (index_2d (i : Int) (j : Int) (n : Int) (n : Int)) =
          ((c.transition_counts.getD (i * n + j) 0 : Int) : ℚ) /
            ∑ l ∈ Finset.range n, ((c.transition_counts.getD (i * n + l) 0 : Int) : ℚ) := by
        intro j hj
        rw [Finset.mem_range] at hj
        rw [entry_index_natCast, p i j hj, if_pos ⟨hi, hpos'⟩]
      rw [Finset.sum_congr rfl hcell, ← Finset.sum_div, div_self (ne_of_gt hpos')]
    · intro hnp j hj0 hj
      obtain ⟨k, rfl⟩ : ∃ k : Nat, j = (k : Int) := ⟨j.toNat, by omega⟩
      have hk : k < n := by omega
      have hnp' : ¬ 0 < ∑ l ∈ Finset.range n,
          ((c.transition_counts.getD (i * n + l) 0 : Int) : ℚ) := by
        rw [← hsum]; intro h; exact hnp (by exact_mod_cast h)
      rw [index_2d_natCast, load_natCast tf 0 _
        (by rw [l2, hf]; exact row_cell_lt i k n hi hk), p i k hk,
        if_neg (fun h => hnp' h.2), f1, getD_replicate_zero]
  · have h0 : W.toNat = 0 := by omega
    have e2 : convert_transition_counts_to_freqs c.transition_counts c.alphabet_width
        c.transition_frequencies = some c.transition_frequencies := by
      unfold convert_transition_counts_to_freqs
      rw [w, h0]
      rfl
    refine ⟨c.transition_frequencies, e2, by rw [f1, List.length_replicate],
      hcreate _ e2, ?_⟩
    intro x hx0 hx
    omega

/-- Witness of C3: the corpus of the single line `0 1` followed by a line feed,
over the alphabet of width 2; the trained counts are `0 1 0 0` and `1 1`. -/
theorem transition_frequencies_rows_witness :
    train [[0, 1, 10]] 2 = some
      { alphabet_width := 2, transition_counts := [0, 1, 0, 0],
        character_counts := [1, 1], transition_frequencies := [0, 0, 0, 0],
        character_frequencies := [0, 0] } ∧
    ∃ tf, convert_transition_counts_to_freqs [0, 1, 0, 0] 2 [0, 0, 0, 0] = some tf ∧
      ∑ j ∈ Finset.range 2, entry tf (index_2d 0 j 2 2) = 1 ∧
      load tf (index_2d 1 0 2 2) = some 0 ∧ load tf (index_2d 1 1 2 2) = some 0 := by
  have ht : train [[0, 1, 10]] 2 = some
      { alphabet_width := 2, transition_counts := [0, 1, 0, 0],
        character_counts := [1, 1], transition_frequencies := [0, 0, 0, 0],
        character_frequencies := [0, 0] } := by rfl
  refine ⟨ht, ?_⟩
  obtain ⟨tf, e, _, _, h⟩ := transition_frequencies_rows 2 [[0, 1, 10]] _ ht
  refine ⟨tf, e, ?_, ?_, ?_⟩
  · exact (h 0 (by decide) (by decide)).1 (by decide)
  · exact (h 1 (by decide) (by decide)).2 (by decide) 0 (by decide) (by decide)
  · exact (h 1 (by decide) (by decide)).2 (by decide) 1 (by decide) (by decide)

/-- Counterexample to C4: the corpus of the single line `a` followed by a line
feed holds a symbol of the alphabet of width 256, training returns, and
`convert_character_counts_to_freqs` divides by the zero sum of the counts: no
table of frequencies summing to 1 comes out. -/
theorem character_frequencies_sum_counterexample :
    in_alphabet [97, 10] 1 256 ∧
    (∃ c, train [[97, 10]] 256 = some c ∧
      convert_character_counts_to_freqs c.character_counts c.alphabet_width
        c.character_frequencies = none) ∧
    ¬ (∃ c cf, train [[97, 10]] 256 = some c ∧
      convert_character_counts_to_freqs c.character_counts c.alphabet_width
        c.character_frequencies = some cf ∧
      ∑ i ∈ Finset.range 256, entry cf (i : Int) = 1) := by
  obtain ⟨c, e, w, _, _, _, m2, _, q2⟩ := train_spec 256 (by decide)
    [[97, 10]] (by decide)
  have hnone : convert_character_counts_to_freqs c.character_counts
      c.alphabet_width c.character_frequencies = none := by
    rw [w]
    apply convert_character_counts_to_freqs_none 256 c.character_counts _
      (by omega) (by decide)
    apply Finset.sum_eq_zero
    intro i _
    rw [q2 i]
    simp [char_hits_eq_zero]
  refine ⟨by decide, ⟨c, e, hnone⟩, ?_⟩
  rintro ⟨c', cf, e', h, _⟩
  rw [e] at e'
  cases e'
  rw [hnone] at h
  exact Option.noConfusion h

/-- C4, amended: when the training lines hold only symbols of `[0, W)` and at
least one of them has two symbols or more before its terminator, training and
both normalisations return, `create_language_classifier` returns a classifier,
and the entries of its `character_frequencies` sum to exactly 1. -/
theorem character_frequencies_sum (W : Int) (lines : List (List Int))
    (hl : ∀ line ∈ lines, in_alphabet line ((line.length : Int) - 1) W)
    (h2 : ∃ line ∈ lines, (2 : Int) ≤ (line.length : Int) - 1) :
    ∃ c cf, train lines W = some c ∧
      convert_character_counts_to_freqs c.character_counts c.alphabet_width
        c.character_frequencies = some cf ∧
      (cf.length : Int) = W ∧
      ∑ i ∈ Finset.range W.toNat, entry cf (i : Int) = 1 ∧
      ∃ m, create_language_classifier lines W = some m ∧
        m.character_frequencies = cf := by
  obtain ⟨line, hmem, hlong⟩ := h2
  have hfirst := in_alphabet_getD (hl line hmem) 0 (by push_cast; omega)
  have hW : 0 < W := by omega
  obtain ⟨c, e, w, f1, f2, m1, m2, _, q2⟩ := train_spec W hW.le lines hl
  obtain ⟨n, rfl⟩ : ∃ n : Nat, W = (n : Int) := ⟨W.toNat, by omega⟩
  have hc : c.character_counts.length = n := by omega
  have hf : c.character_frequencies.length = n := by
    rw [f2, List.length_replicate, Int.toNat_natCast]
  have hpos : 0 < ∑ i ∈ Finset.range n, ((c.character_counts.getD i 0 : Int) : ℚ) := by
    apply Finset.sum_pos'
    · intro i _
      rw [q2 i]
      positivity
    · refine ⟨(line.getD 0 0).toNat, by rw [Finset.mem_range]; omega, ?_⟩
      rw [q2]
      have h1 : 0 < char_hits line ((line.length : Int) - 1) (line.getD 0 0).toNat :=
        char_hits_first_pos line _ _ hlong (by omega)
      have h3 : char_hits line ((line.length : Int) - 1) (line.getD 0 0).toNat ≤
          (lines.map (fun l => char_hits l ((l.length : Int) - 1)
            (line.getD 0 0).toNat)).sum :=
        List.le_sum_of_mem (List.mem_map_of_mem
          (fun l => char_hits l ((l.length : Int) - 1) (line.getD 0 0).toNat) hmem)
      have h4 : 0 < (lines.map (fun l => char_hits l ((l.length : Int) - 1)
            (line.getD 0 0).toNat)).sum := by omega
      exact_mod_cast h4
  obtain ⟨cf, e2, l2, p⟩ := convert_character_counts_to_freqs_spec n
    c.character_counts c.character_frequencies hc hf (ne_of_gt hpos)
  obtain ⟨tf, e1, _, _⟩ := convert_transition_counts_to_freqs_spec n
    c.transition_counts c.transition_frequencies (natCast_mul_self n _ m1)
    (by rw [f1, List.length_replicate]
        exact natCast_mul_self n _ (by have := mul_self_nonneg (n : Int); omega))
  rw [← w] at e1 e2
  refine ⟨c, cf, e, e2, by omega, ?_, _, create_of_parts lines _ c tf cf e e1 e2, rfl⟩
  rw [Int.toNat_natCast]
  have hcell : ∀ i ∈ Finset.range n, entry cf (i : Int) =
      ((c.character_counts.getD i 0 : Int) : ℚ) /
        ∑ i ∈ Finset.range n, ((c.character_counts.getD i 0 : Int) : ℚ) := by
    intro i hi
    rw [Finset.mem_range] at hi
    rw [entry_natCast, p i hi]
  rw [Finset.sum_congr rfl hcell, ← Finset.sum_div, div_self (ne_of_gt hpos)]

/-- Witness of C4 as amended: the corpus `ab`, `a`, each followed by a line
feed, over the alphabet of width 128. -/
theorem character_frequencies_sum_witness :
    ((∀ line ∈ [[(97 : Int), 98, 10], [97, 10]],
        in_alphabet line ((line.length : Int) - 1) 128) ∧
      ∃ line ∈ [[(97 : Int), 98, 10], [97, 10]], (2 : Int) ≤ (line.length : Int) - 1) ∧
    ∃ m, create_language_classifier [[97, 98, 10], [97, 10]] 128 = some m ∧
      ∑ i ∈ Finset.range (128 : Int).toNat, entry m.character_frequencies (i : Int) = 1 := by
  refine ⟨⟨by decide, by decide⟩, ?_⟩
  obtain ⟨c, cf, _, _, _, hsum, m, hm, hcf⟩ :=
    character_frequencies_sum 128 [[97, 98, 10], [97, 10]] (by decide) (by decide)
  exact ⟨m, hm, by rw [hcf]; exact hsum⟩

/-- C5, evaluated at a failing input: with the width 2 and the frequency table
`0 1 0 0`, the two-byte buffer `0x01 0xFF` (the `char` values `1` and `-1`) has
its only pair pass the test `a < W && b < W`; the code reads the cell
`1*2 + (-1) = 1` and returns `100 * 1 / 2 = 50`, whereas the sum over the pairs
with both symbols in `[0, W)` is empty and the specified score is `0`. -/
theorem score_transitions_negative_symbol :
    (∀ v ∈ [(1 : Int), -1], is_char v) ∧
    score_transitions
      { alphabet_width := 2, transition_counts := [0, 1, 0, 0],
        character_counts := [1, 1], transition_frequencies := [0, 1, 0, 0],
        character_frequencies := [1 / 2, 1 / 2] } [1, -1] 2 = some 50 ∧
    transition_sum
      { alphabet_width := 2, transition_counts := [0, 1, 0, 0],
        character_counts := [1, 1], transition_frequencies := [0, 1, 0, 0],
        character_frequencies := [1 / 2, 1 / 2] } [1, -1] 2 / ((2 : Int) : ℚ) = 0 := by
  refine ⟨by decide, ?_, ?_⟩
  · norm_num [score_transitions, score_step, load, index_2d, fdiv, List.range_succ]
  · have h : ((2 : Int) - 1).toNat = 1 := rfl
    simp [transition_sum, h, Finset.sum_filter, Finset.sum_range_succ]

/-- C7: for every model of width `W` (with its table of `W` character
frequencies) and every buffer whose first `n ≥ 1` symbols all lie in `[0, W)`,
`score_frequencies` returns the sum of `|character_frequencies[i] - q[i]|` over
exactly the indices `i` of `[0, W)` where both `character_frequencies[i] > 0` and
`q[i] > 0`, with `q[i]` the number of occurrences of `i` in the buffer divided
by `n`. -/
theorem score_frequencies_positive_overlap (c : LanguageClassifier)
    (buf : List Int) (n : Int) (hn : 1 ≤ n)
    (hbuf : in_alphabet buf n c.alphabet_width)
    (hcf : (c.character_frequencies.length : Int) = c.alphabet_width) :
    score_frequencies c buf n =
      some (∑ i ∈ (Finset.range c.alphabet_width.toNat).filter (fun (i : Nat) =>
          0 < entry c.character_frequencies (i : Int) ∧
          0 < (occurrences buf n (i : Int) : ℚ) / (n : ℚ)),
        |entry c.character_frequencies (i : Int) -
          (occurrences buf n (i : Int) : ℚ) / (n : ℚ)|) := by
  rw [score_frequencies_spec c buf n hn hbuf hcf]
  unfold frequency_distance buffer_frequency
  rfl

/-- Witness of C7: the buffer `0 0 1` scored against the model of width 3 whose
character frequencies are `1/2, 0, 1/2`: only the symbol `0` has both
frequencies positive, and the score is `|1/2 - 2/3| = 1/6`. -/
theorem score_frequencies_positive_overlap_witness :
    ((1 : Int) ≤ 3 ∧ in_alphabet [0, 0, 1] 3 3 ∧
      (([1 / 2, 0, 1 / 2] : List ℚ).length : Int) = 3) ∧
    score_frequencies
      { alphabet_width := 3, transition_counts := [], character_counts := [],
        transition_frequencies := [], character_frequencies := [1 / 2, 0, 1 / 2] }
      [0, 0, 1] 3 = some (1 / 6) := by
  refine ⟨⟨by decide, by decide, by decide⟩, ?_⟩
  rw [score_frequencies_positive_overlap _ [0, 0, 1] 3 (by decide) (by decide)
    (by decide)]
  have h3 : (3 : Int).toNat = 3 := rfl
  have h2 : (2 : Int).toNat = 2 := rfl
  simp only [h3, Finset.sum_filter, Finset.sum_range_succ, Finset.sum_range_zero]
  norm_num [entry, load, occurrences, h3, h2]

/-- C8: for every model, buffer, length and pair of weights,
`score_as_language_custom` is `frequency_weight * score_frequencies +
transition_weight * score_transitions`: the fourth argument multiplies the
transition score, the fifth the frequency score, and a value is returned
exactly when both sub-scores return one. -/
theorem score_as_language_custom_weights (c : LanguageClassifier)
    (buf : List Int) (buflen : Int) (transition_weight frequency_weight : ℚ) :
    score_as_language_custom c buf buflen transition_weight frequency_weight =
      (score_frequencies c buf buflen).bind (fun f =>
        (score_transitions c buf buflen).bind (fun t =>
          some (frequency_weight * f + transition_weight * t))) := by
  unfold score_as_language_custom
  cases score_frequencies c buf buflen with
  | none => rfl
  | some f =>
    cases score_transitions c buf buflen with
    | none => rfl
    | some t =>
      simp only [Option.some_bind]
      rw [mul_comm f frequency_weight, mul_comm t transition_weight]

/-- Instance of C8: on the model of width 2 with transition frequencies
`0 1 0 0` and character frequencies `1/2 1/2`, the buffer `0 1 1` has the
transition score `100/3` and the frequency score `1/3`; the weights `(3, 5)` give
`5 * (1/3) + 3 * (100/3)`. -/
theorem score_as_language_custom_weights_witness :
    score_transitions
      { alphabet_width := 2, transition_counts := [0, 1, 0, 0],
        character_counts := [1, 1], transition_frequencies := [0, 1, 0, 0],
        character_frequencies := [1 / 2, 1 / 2] } [0, 1, 1] 3 = some (100 / 3) ∧
    score_frequencies
      { alphabet_width := 2, transition_counts := [0, 1, 0, 0],
        character_counts := [1, 1], transition_frequencies := [0, 1, 0, 0],
        character_frequencies := [1 / 2, 1 / 2] } [0, 1, 1] 3 = some (1 / 3) ∧
    score_as_language_custom
      { alphabet_width := 2, transition_counts := [0, 1, 0, 0],
        character_counts := [1, 1], transition_frequencies := [0, 1, 0, 0],
        character_frequencies := [1 / 2, 1 / 2] } [0, 1, 1] 3 3 5
      = some (5 * (1 / 3) + 3 * (100 / 3)) := by
  have h2 : (2 : Int).toNat = 2 := rfl
  have h3 : (3 : Int).toNat = 3 := rfl
  have ht : score_transitions
      { alphabet_width := 2, transition_counts := [0, 1, 0, 0],
        character_counts := [1, 1], transition_frequencies := [0, 1, 0, 0],
        character_frequencies := [1 / 2, 1 / 2] } [0, 1, 1] 3 = some (100 / 3) := by
    norm_num [score_transitions, score_step, load, index_2d, fdiv, List.range_succ,
      h2, h3]
  have hf : score_frequencies
      { alphabet_width := 2, transition_counts := [0, 1, 0, 0],
        character_counts := [1, 1], transition_frequencies := [0, 1, 0, 0],
        character_frequencies := [1 / 2, 1 / 2] } [0, 1, 1] 3 = some (1 / 3) := by
    norm_num [score_frequencies, buf_freqs_step, dumb_diff_matrices, dumb_diff_step,
      load, store, fdiv, List.range_succ, h2, h3]
    rw [abs_of_pos (by norm_num : (0 : ℚ) < 1 / 6)]
    norm_num
  refine ⟨ht, hf, ?_⟩
  rw [score_as_language_custom_weights, hf, ht]
  rfl

/-- C9: for every model, buffer and length, `score_as_language` is
`score_as_language_custom` with both weights `1`, that is the sum
`score_frequencies + score_transitions`, returned exactly when both sub-scores
return a value. -/
theorem score_as_language_unit_weights (c : LanguageClassifier)
    (buf : List Int) (buflen : Int) :
    score_as_language c buf buflen = score_as_language_custom c buf buflen 1 1 ∧
    score_as_language c buf buflen =
      (score_frequencies c buf buflen).bind (fun f =>
        (score_transitions c buf buflen).bind (fun t => some (f + t))) := by
  refine ⟨rfl, ?_⟩
  unfold score_as_language score_as_language_custom
  cases score_frequencies c buf buflen with
  | none => rfl
  | some f =>
    cases score_transitions c buf buflen with
    | none => rfl
    | some t =>
      simp only [Option.some_bind]
      rw [mul_one, mul_one]

/-- C10: the model of width 256 trained from the zero-filled tables on the line
`ab` (followed by a line feed) and then normalised scores the buffer `ab` at
`50` and the buffer `ba` at `0`; more generally, for every width `W`, every two
distinct symbols `x`, `y` of `[0, W)` and every terminator, training on the word
`xy` alone returns a model whose transition score on the buffer `xy` (it is `50`)
is strictly larger than its transition score on the buffer `yx` (it is `0`). -/
theorem score_transitions_directional :
    (∃ m, create_language_classifier [[97, 98, 10]] 256 = some m ∧
      score_transitions m [97, 98] 2 = some 50 ∧
      score_transitions m [98, 97] 2 = some 0) ∧
    (∀ (W x y t : Int), 0 ≤ x → x < W → 0 ≤ y → y < W → x ≠ y →
      ∃ m s_xy s_yx, create_language_classifier [[x, y, t]] W = some m ∧
        score_transitions m [x, y] 2 = some s_xy ∧
        score_transitions m [y, x] 2 = some s_yx ∧
        s_yx < s_xy ∧ s_xy = 50 ∧ s_yx = 0) := by
  have general : ∀ (W x y t : Int), 0 ≤ x → x < W → 0 ≤ y → y < W → x ≠ y →
      ∃ m s_xy s_yx, create_language_classifier [[x, y, t]] W = some m ∧
        score_transitions m [x, y] 2 = some s_xy ∧
        score_transitions m [y, x] 2 = some s_yx ∧
        s_yx < s_xy ∧ s_xy = 50 ∧ s_yx = 0 := by
    intro W x y t hx0 hx hy0 hy hxy
    obtain ⟨n, rfl⟩ : ∃ n : Nat, W = (n : Int) := ⟨W.toNat, by omega⟩
    obtain ⟨a, rfl⟩ : ∃ a : Nat, x = (a : Int) := ⟨x.toNat, by omega⟩
    obtain ⟨b, rfl⟩ : ∃ b : Nat, y = (b : Int) := ⟨y.toNat, by omega⟩
    have ha : a < n := by omega
    have hb : b < n := by omega
    obtain ⟨m, e, w, l, v1, v0⟩ := trained_on_pair n a b t ha hb (by omega)
    have htf : (m.transition_frequencies.length : Int) =
        m.alphabet_width * m.alphabet_width := by
      rw [w, l]; push_cast; ring
    refine ⟨m, 50, 0, e, ?_, ?_, by norm_num, rfl, rfl⟩
    · rw [score_transitions_spec m _ 2 (by decide) (by simp) ?_ htf,
        transition_sum_pair m n a b w ha hb, v1]
      · norm_num
      · intro i hi
        have : i = 0 ∨ i = 1 := by omega
        rcases this with rfl | rfl
        · exact Int.natCast_nonneg a
        · exact Int.natCast_nonneg b
    · rw [score_transitions_spec m _ 2 (by decide) (by simp) ?_ htf,
        transition_sum_pair m n b a w hb ha, v0]
      · norm_num
      · intro i hi
        have : i = 0 ∨ i = 1 := by omega
        rcases this with rfl | rfl
        · exact Int.natCast_nonneg b
        · exact Int.natCast_nonneg a
  refine ⟨?_, general⟩
  obtain ⟨m, s_xy, s_yx, e, s1, s2, _, v1, v2⟩ := general 256 97 98 10 (by decide)
    (by decide) (by decide) (by decide) (by decide)
  exact ⟨m, e, by rw [s1, v1], by rw [s2, v2]⟩

/-- Witness of C10: the symbols `0` and `1` of the alphabet of width 2, with the
line feed as terminator. -/
theorem score_transitions_directional_witness :
    ((0 : Int) ≤ 0 ∧ (0 : Int) < 2 ∧ (0 : Int) ≤ 1 ∧ (1 : Int) < 2 ∧ (0 : Int) ≠ 1) ∧
    ∃ m, create_language_classifier [[0, 1, 10]] 2 = some m ∧
      score_transitions m [0, 1] 2 = some 50 ∧
      score_transitions m [1, 0] 2 = some 0 := by
  refine ⟨by decide, ?_⟩
  obtain ⟨m, s_xy, s_yx, e, s1, s2, _, v1, v2⟩ :=
    score_transitions_directional.2 2 0 1 10
      (by decide) (by decide) (by decide) (by decide) (by decide)
  exact ⟨m, e, by rw [s1, v1], by rw [s2, v2]⟩

/-- C11, evaluated at failing inputs.  The word `a 0xFF b` of the claim holds the
`char` values `97, -1, 98`; with the width 128 both pairs pass the test
`x < W && y < W`.  The first pair increments the cell `97*128 - 1 = 12415` of
the zero-filled `transition_counts`, the second pair has the index
`-128 + 98 = -30`, outside the table, so that the call and the training on the
line return nothing.  On the word `1, -1, 5, 0, 0` with the width 2 every access
is in the tables and the pair `(1, -1)` is recorded in the cell `1` (a
transition from `0` to `1` that the word does not hold). -/
theorem count_word_transitions_negative_symbol :
    (∀ v ∈ [(97 : Int), -1, 98], is_char v) ∧
    index_2d 97 (-1) 128 128 = 12415 ∧ index_2d (-1) 98 128 128 = -30 ∧
    (∃ t, count_step [97, -1, 98] 3 128
        ((calloc_classifier 128).transition_counts,
          (calloc_classifier 128).character_counts) 0 = some t ∧
      load t.1 12415 = some 1) ∧
    count_word_transitions [97, -1, 98] 3 128
      (calloc_classifier 128).transition_counts
      (calloc_classifier 128).character_counts = none ∧
    train [[97, -1, 98, 10]] 128 = none ∧
    count_word_transitions [1, -1, 5, 0, 0] 5 2 [0, 0, 0, 0] [0, 0] =
      some ([1, 1, 0, 0], [2, 1]) := by
  have hl1 : (((calloc_classifier 128).transition_counts.length : Nat) : Int) = 16384 := by
    unfold calloc_classifier
    rw [List.length_replicate]
    rfl
  have hl2 : (((calloc_classifier 128).character_counts.length : Nat) : Int) = 128 := by
    unfold calloc_classifier
    rw [List.length_replicate]
    rfl
  have i1 : index_2d 97 (-1) 128 128 = 12415 := by decide
  have i2 : index_2d (-1) 98 128 128 = -30 := by decide
  have step0 := count_step_some_of_good_index [97, -1, 98] 3 128
    ((calloc_classifier 128).transition_counts,
      (calloc_classifier 128).character_counts) 0 97 (-1) (by decide) (by decide)
    (by decide) (by decide) (by rw [i1, hl1]; decide) (by rw [hl2]; decide)
    (by decide)
  obtain ⟨t, e, l, p⟩ := step0
  have step1 : count_step [97, -1, 98] 3 128 t 1 = none :=
    count_step_none_of_bad_index [97, -1, 98] 3 128 t 1 (-1) 98 (by decide) (by decide)
      (by decide) (by decide) (Or.inl (by rw [i2]; decide))
  have hcall : count_word_transitions [97, -1, 98] 3 128
      (calloc_classifier 128).transition_counts
      (calloc_classifier 128).character_counts = none := by
    unfold count_word_transitions
    have hr : List.range ((3 : Int) - 1).toNat = [0, 1] := rfl
    rw [hr]
    exact foldlM_pair_none _ _ t e step1
  refine ⟨by decide, i1, i2, ⟨t, e, ?_⟩, hcall, ?_, by decide⟩
  · rw [i1] at p
    rw [p]
    have hz : (calloc_classifier 128).transition_counts.getD (12415 : Int).toNat 0 = 0 := by
      unfold calloc_classifier
      exact getD_replicate_zero _ _
    show some (_ + 1) = some 1
    rw [hz]
    rfl
  · unfold train for_line_in_file
    rw [List.foldlM_cons]
    have hb : build_classifier_from_line [97, -1, 98, 10]
        (([97, -1, 98, 10] : List Int).length : Int) (calloc_classifier 128) = none := by
      unfold build_classifier_from_line
      have h3 : ((([97, -1, 98, 10] : List Int).length : Int) - 1) = 3 := rfl
      have hword : count_word_transitions [97, -1, 98, 10] 3 128
          (calloc_classifier 128).transition_counts
          (calloc_classifier 128).character_counts = none := by
        unfold count_word_transitions
        have hr : List.range ((3 : Int) - 1).toNat = [0, 1] := rfl
        obtain ⟨t', e', _, _⟩ := count_step_some_of_good_index [97, -1, 98, 10] 3 128
          ((calloc_classifier 128).transition_counts,
            (calloc_classifier 128).character_counts) 0 97 (-1) (by decide) (by decide)
          (by decide) (by decide) (by rw [i1, hl1]; decide) (by rw [hl2]; decide)
          (by decide)
        rw [hr]
        exact foldlM_pair_none _ _ t' e'
          (count_step_none_of_bad_index [97, -1, 98, 10] 3 128 t' 1 (-1) 98
            (by decide) (by decide) (by decide) (by decide)
            (Or.inl (by rw [i2]; decide)))
      rw [h3]
      show (count_word_transitions [97, -1, 98, 10] 3 128
          (calloc_classifier 128).transition_counts
          (calloc_classifier 128).character_counts).bind _ = none
      rw [hword]
      rfl
    rw [hb]
    rfl

/-- C12: for every word, width and pair of tables, `count_word_transitions`
called with `word_length` 0 or 1 runs its loop zero times and returns both tables
as they were (the sole symbol of a one-symbol line is not counted); a line of
`word_length + 1` characters handed to `build_classifier_from_line` then leaves
the classifier unchanged. -/
theorem count_word_transitions_short_line (word : List Int)
    (word_length W : Int) (tc cc : List Int)
    (h : word_length = 0 ∨ word_length = 1) :
    count_word_transitions word word_length W tc cc = some (tc, cc) ∧
    ∀ c : LanguageClassifier,
      build_classifier_from_line word (word_length + 1) c = some c := by
  have hz : ∀ W' tc' cc',
      count_word_transitions word word_length W' tc' cc' = some (tc', cc') := by
    intro W' tc' cc'
    unfold count_word_transitions
    have h0 : (word_length - 1).toNat = 0 := by omega
    rw [h0]
    rfl
  refine ⟨hz W tc cc, fun c => ?_⟩
  unfold build_classifier_from_line
  have e : word_length + 1 - 1 = word_length := by ring
  rw [e, hz]
  rfl

/-- Witness of C12: the one-symbol word `a` and tables that are not zero. -/
theorem count_word_transitions_short_line_witness :
    ((1 : Int) = 0 ∨ (1 : Int) = 1) ∧
    count_word_transitions [97] 1 2 [1, 2, 3, 4] [5, 6] = some ([1, 2, 3, 4], [5, 6]) :=
  ⟨by decide,
    (count_word_transitions_short_line [97] 1 2 [1, 2, 3, 4] [5, 6] (by decide)).1⟩

/-- C13, evaluated at a failing input: with the width 2 and the two-symbol word
`0, 5`, the pair is skipped by the range test, but the increment of the last
symbol is made outside that test and indexes `character_counts[5]`, outside the
table of length 2: the step of the loop, and the call, return nothing. -/
theorem count_word_transitions_last_symbol_out_of_range :
    (∀ v ∈ [(0 : Int), 5], is_char v) ∧
    ¬ ((0 : Int) < 2 ∧ (5 : Int) < 2) ∧
    incr [0, 0] 5 = none ∧
    count_step [0, 5] 2 2 ([0, 0, 0, 0], [0, 0]) 0 = none ∧
    count_word_transitions [0, 5] 2 2 [0, 0, 0, 0] [0, 0] = none := by
  refine ⟨by decide, by decide, by decide, by decide, by decide⟩

/-- C14, evaluated at a failing input: `score_frequencies` has no range test; with
the width 2 and the one-byte buffer `5` the loop indexes `buf_freqs[5]`, outside
the local vector of length 2, so the step of the loop and the call return
nothing instead of skipping the symbol. -/
theorem score_frequencies_symbol_out_of_range :
    is_char 5 ∧
    load (List.replicate (2 : Int).toNat (0 : ℚ)) 5 = none ∧
    buf_freqs_step [5] 1 (List.replicate (2 : Int).toNat (0 : ℚ)) 0 = none ∧
    score_frequencies
      { alphabet_width := 2, transition_counts := [0, 0, 0, 0],
        character_counts := [1, 1], transition_frequencies := [0, 0, 0, 0],
        character_frequencies := [1 / 2, 1 / 2] } [5] 1 = none := by
  have hl : load (List.replicate (2 : Int).toNat (0 : ℚ)) 5 = none :=
    load_eq_none _ _ (Or.inr (by decide))
  have hs : buf_freqs_step [5] 1 (List.replicate (2 : Int).toNat (0 : ℚ)) 0 = none := by
    unfold buf_freqs_step
    have hb : load ([5] : List Int) ((0 : Nat) : Int) = some 5 := by decide
    rw [hb, Option.some_bind, hl]
    rfl
  refine ⟨by decide, hl, hs, ?_⟩
  unfold score_frequencies
  have hr : List.range (1 : Int).toNat = [0] := rfl
  rw [hr, List.foldlM_cons]
  show (buf_freqs_step [5] 1 (List.replicate (2 : Int).toNat (0 : ℚ)) 0).bind _ = none
  rw [hs]
  rfl

/-- C15, evaluated at a failing input: with the width 256, the bytes `0xFF 0x41`
are the `char` values `-1` and `65`; both pass the test `a < W && b < W`, the
index formed is `-1*256 + 65 = -191`, a negative number outside
`[0, 256*256)`, and `score_transitions` returns nothing, whatever the four
tables of the model hold. -/
theorem score_transitions_byte_sign_extended
    (tf cf : List ℚ) (tc cc : List Int) :
    char_of_byte 255 = -1 ∧ char_of_byte 65 = 65 ∧
    (char_of_byte 255 < 256 ∧ char_of_byte 65 < 256) ∧
    index_2d (char_of_byte 255) (char_of_byte 65) 256 256 = -191 ∧
    ¬ (0 ≤ index_2d (char_of_byte 255) (char_of_byte 65) 256 256 ∧
      index_2d (char_of_byte 255) (char_of_byte 65) 256 256 < 256 * 256) ∧
    score_transitions
      { alphabet_width := 256, transition_counts := tc, character_counts := cc,
        transition_frequencies := tf, character_frequencies := cf }
      [char_of_byte 255, char_of_byte 65] 2 = none := by
  refine ⟨by decide, by decide, by decide, by decide, by decide, ?_⟩
  unfold score_transitions
  have hr : List.range ((2 : Int) - 1).toNat = [0] := rfl
  have h1 : (-1 : Int) < 256 := by decide
  have h2 : (65 : Int) < 256 := by decide
  have h3 : index_2d (-1) 65 256 256 < 0 := by decide
  rw [hr, List.foldlM_cons,
    score_step_none_of_negative_index _ [char_of_byte 255, char_of_byte 65] 0 0
      (-1) 65 (by decide) (by decide) h1 h2 h3]
  rfl

/-- C17: counts only grow during training.  For every width, every pair of count
tables and every word with symbols in `[0, W)`, `count_word_transitions` returns
tables of the same sizes in which every entry of `transition_counts` and of
`character_counts` is at least its value before; hence, over any sequence of
such training lines, tables whose entries are non-negative stay so. -/
theorem counts_monotone :
    (∀ (W : Int) (tc cc word : List Int) (word_length : Int),
      (tc.length : Int) = W * W → (cc.length : Int) = W →
      in_alphabet word word_length W →
      ∃ tc' cc', count_word_transitions word word_length W tc cc = some (tc', cc') ∧
        tc'.length = tc.length ∧ cc'.length = cc.length ∧
        (∀ k v : Int, load tc k = some v → ∃ v', load tc' k = some v' ∧ v ≤ v') ∧
        (∀ k v : Int, load cc k = some v → ∃ v', load cc' k = some v' ∧ v ≤ v')) ∧
    (∀ (W : Int) (lines : List (List Int)) (c0 : LanguageClassifier),
      c0.alphabet_width = W →
      (c0.transition_counts.length : Int) = W * W →
      (c0.character_counts.length : Int) = W →
      (∀ line ∈ lines, in_alphabet line ((line.length : Int) - 1) W) →
      (∀ k v : Int, load c0.transition_counts k = some v → 0 ≤ v) →
      (∀ k v : Int, load c0.character_counts k = some v → 0 ≤ v) →
      ∃ c, for_line_in_file lines build_classifier_from_line c0 = some c ∧
        (∀ k v : Int, load c.transition_counts k = some v → 0 ≤ v) ∧
        (∀ k v : Int, load c.character_counts k = some v → 0 ≤ v)) := by
  constructor
  · intro W tc cc word n h1 h2 hw
    obtain ⟨t, e, l1, l2, p1, p2⟩ := count_word_transitions_hits word n W tc cc hw h1 h2
    refine ⟨t.1, t.2, e, l1, l2, ?_, ?_⟩
    · exact load_le_of_getD_le tc t.1 l1 (fun k => by rw [p1 k]; omega)
    · exact load_le_of_getD_le cc t.2 l2 (fun k => by rw [p2 k]; omega)
  · intro W lines c0 hW h1 h2 hl n1 n2
    obtain ⟨c, e, _, _, _, m1, m2, q1, q2⟩ := for_line_in_file_spec W lines hl c0 hW h1 h2
    refine ⟨c, e, ?_, ?_⟩
    · intro k v hk
      obtain ⟨k0, k1, hv⟩ := load_some_bounds _ k v hk
      have h0 := n1 k _ (load_of_lt c0.transition_counts 0 k k0 (by omega))
      rw [← hv, q1]
      omega
    · intro k v hk
      obtain ⟨k0, k1, hv⟩ := load_some_bounds _ k v hk
      have h0 := n2 k _ (load_of_lt c0.character_counts 0 k k0 (by omega))
      rw [← hv, q2]
      omega

/-- Witness of C17: the word `0 1 1` counted into tables that already hold
counts, with the width 2. -/
theorem counts_monotone_witness :
    ((([3, 0, 1, 2] : List Int).length : Int) = 2 * 2 ∧
      (([4, 5] : List Int).length : Int) = 2 ∧ in_alphabet [0, 1, 1] 3 2) ∧
    ∃ tc' cc', count_word_transitions [0, 1, 1] 3 2 [3, 0, 1, 2] [4, 5]
        = some (tc', cc') ∧
      ∃ v', load tc' 1 = some v' ∧ (0 : Int) ≤ v' := by
  refine ⟨⟨by decide, by decide, by decide⟩, ?_⟩
  obtain ⟨tc', cc', e, _, _, h, _⟩ := counts_monotone.1 2 [3, 0, 1, 2] [4, 5]
    [0, 1, 1] 3 (by decide) (by decide) (by decide)
  exact ⟨tc', cc', e, h 1 0 (by decide)⟩

/-- C18: for every model trained from the zero-filled tables on lines whose
symbols all lie in `[0, W)`, training returns and the sum of all
`character_counts` equals the sum of all `transition_counts` plus the number of
training lines that had at least two symbols. -/
theorem character_total_eq_transition_total (W : Int) (lines : List (List Int))
    (hl : ∀ line ∈ lines, in_alphabet line ((line.length : Int) - 1) W) :
    ∃ c, train lines W = some c ∧
      c.character_counts.sum = c.transition_counts.sum +
        ((lines.countP (fun l => decide ((2 : Int) ≤ (l.length : Int) - 1)) : Nat) : Int) := by
  by_cases hW : 0 ≤ W
  · obtain ⟨n, rfl⟩ : ∃ n : Nat, W = (n : Int) := ⟨W.toNat, by omega⟩
    obtain ⟨c, e, _, _, _, m1, m2, q1, q2⟩ := train_spec (n : Int) hW lines hl
    refine ⟨c, e, ?_⟩
    have hc1 : c.transition_counts.length = n * n := natCast_mul_self n _ m1
    have hc2 : c.character_counts.length = n := by omega
    have hcc : c.character_counts.sum =
        (((lines.map (fun l => ∑ k ∈ Finset.range n,
          char_hits l ((l.length : Int) - 1) k)).sum : Nat) : Int) := by
      rw [list_sum_eq_sum_getD, hc2,
        ← sum_range_list_sum n lines (fun l k => char_hits l ((l.length : Int) - 1) k),
        Nat.cast_sum]
      exact Finset.sum_congr rfl (fun k _ => q2 k)
    have htc : c.transition_counts.sum =
        (((lines.map (fun l => ∑ k ∈ Finset.range (n * n),
          pair_hits l ((l.length : Int) - 1) (n : Int) k)).sum : Nat) : Int) := by
      rw [list_sum_eq_sum_getD, hc1,
        ← sum_range_list_sum (n * n) lines
          (fun l k => pair_hits l ((l.length : Int) - 1) (n : Int) k),
        Nat.cast_sum]
      exact Finset.sum_congr rfl (fun k _ => q1 k)
    rw [hcc, htc, sum_map_add_countP lines _ _
      (fun l => decide ((2 : Int) ≤ (l.length : Int) - 1))]
    · push_cast
      rfl
    · intro l hm
      rw [sum_char_hits l _ n (hl l hm), sum_pair_hits l _ n (hl l hm)]
      by_cases h2 : (2 : Int) ≤ (l.length : Int) - 1
      · rw [if_pos h2, if_pos (decide_eq_true h2)]
        omega
      · rw [if_neg h2, if_neg (by simpa using h2)]
        omega
  · have hshort : ∀ line ∈ lines, (line.length : Int) - 1 ≤ 0 := by
      intro line hm
      by_contra hc
      have := in_alphabet_getD (hl line hm) 0 (by push_cast; omega)
      omega
    refine ⟨calloc_classifier W,
      for_line_in_file_short lines (fun l hm => by have := hshort l hm; omega) _, ?_⟩
    have hz : lines.countP (fun l => decide ((2 : Int) ≤ (l.length : Int) - 1)) = 0 := by
      rw [List.countP_eq_zero]
      intro l hm
      have := hshort l hm
      simp only [decide_eq_true_eq]
      omega
    rw [hz]
    simp [calloc_classifier]

/-- Witness of C18: the lines `hello`, `world` and `a`, each followed by a line
feed, with the width 256: two lines have two symbols or more. -/
theorem character_total_eq_transition_total_witness :
    (∀ line ∈ [[(104 : Int), 101, 108, 108, 111, 10], [119, 111, 114, 108, 100, 10],
        [97, 10]], in_alphabet line ((line.length : Int) - 1) 256) ∧
    ∃ c, train [[104, 101, 108, 108, 111, 10], [119, 111, 114, 108, 100, 10],
        [97, 10]] 256 = some c ∧
      c.character_counts.sum = c.transition_counts.sum + 2 := by
  refine ⟨by decide, ?_⟩
  obtain ⟨c, e, h⟩ := character_total_eq_transition_total 256
    [[104, 101, 108, 108, 111, 10], [119, 111, 114, 108, 100, 10], [97, 10]]
    (by decide)
  exact ⟨c, e, h⟩

/-- C19: for every trained model (the tables zero-filled, the counts accumulated
line after line, `convert_transition_counts_to_freqs` applied to them) every
transition frequency lies in `[0, 1]`, and for every buffer whose first `n ≥ 1`
symbols lie in `[0, W)`, `score_transitions` returns a score `s` with
`0 ≤ s ≤ 100 * (n - 1) / n`, hence `s < 100`; every classifier that
`create_language_classifier` returns is such a model. -/
theorem score_transitions_bounded :
    (∀ (W : Int) (lines : List (List Int)) (c m : LanguageClassifier)
      (tf : List ℚ) (buf : List Int) (n : Int),
      train lines W = some c →
      convert_transition_counts_to_freqs c.transition_counts c.alphabet_width
        c.transition_frequencies = some tf →
      m.alphabet_width = W → m.transition_frequencies = tf →
      1 ≤ n → in_alphabet buf n W →
      (∀ (k : Int) (v : ℚ), load m.transition_frequencies k = some v →
        0 ≤ v ∧ v ≤ 1) ∧
      ∃ s, score_transitions m buf n = some s ∧
        0 ≤ s ∧ s ≤ 100 * ((n : ℚ) - 1) / (n : ℚ) ∧ s < 100) ∧
    (∀ (W : Int) (lines : List (List Int)) (m : LanguageClassifier),
      create_language_classifier lines W = some m →
      ∃ c tf, train lines W = some c ∧
        convert_transition_counts_to_freqs c.transition_counts c.alphabet_width
          c.transition_frequencies = some tf ∧
        m.alphabet_width = W ∧ m.transition_frequencies = tf) := by
  constructor
  · intro W lines c m tf buf n htrain hconv hmw hmt hn hbuf
    have hfirst := in_alphabet_getD hbuf 0 (by push_cast; omega)
    obtain ⟨w, rfl⟩ : ∃ w : Nat, W = (w : Int) := ⟨W.toNat, by omega⟩
    have hw0 : 0 < w := by omega
    obtain ⟨_, hlen, hcell⟩ := trained_transition_frequencies w lines c tf htrain hconv
    rw [← hmt] at hlen hcell
    have hnq : (0 : ℚ) < (n : ℚ) := by exact_mod_cast (by omega : (0 : Int) < n)
    constructor
    · intro k v hk
      obtain ⟨k0, k1, hv⟩ := load_some_getD _ 0 k v hk
      have hdm : k.toNat / w * w + k.toNat % w = k.toNat := Nat.div_add_mod' _ _
      have := hcell (k.toNat / w) (k.toNat % w) (Nat.mod_lt _ hw0)
      rw [hdm, hv] at this
      exact this
    · have htf : (m.transition_frequencies.length : Int) =
          m.alphabet_width * m.alphabet_width := by
        rw [hmw, hlen]; push_cast; ring
      obtain ⟨b0, b1⟩ := transition_sum_bounds m w buf n hmw hcell
      rw [natCast_toNat_sub_one n hn] at b1
      refine ⟨transition_sum m buf n / (n : ℚ),
        score_transitions_spec m buf n hn hbuf.1
          (fun i hi => (in_alphabet_getD hbuf i hi).1) htf,
        div_nonneg b0 hnq.le, div_le_div_of_nonneg_right b1 hnq.le, ?_⟩
      rw [div_lt_iff₀ hnq]
      linarith
  · intro W lines m hm
    obtain ⟨c, tf, cf, e, e1, _, rfl⟩ := create_parts lines W m hm
    exact ⟨c, tf, e, e1, (train_shape W lines c e).1, rfl⟩

/-- Witness of C19: the model trained on the line `0 1` followed by a line feed,
with the width 2, and the buffer `0 1`. -/
theorem score_transitions_bounded_witness :
    ((1 : Int) ≤ 2 ∧ in_alphabet [0, 1] 2 2) ∧
    ∃ m, create_language_classifier [[0, 1, 10]] 2 = some m ∧
      ∃ s, score_transitions m [0, 1] 2 = some s ∧ 0 ≤ s ∧ s < 100 := by
  refine ⟨⟨by decide, by decide⟩, ?_⟩
  obtain ⟨m, e, _⟩ := create_language_classifier_spec 2 [[0, 1, 10]] (by decide)
    (by decide)
  obtain ⟨c, tf, htrain, hconv, hmw, hmt⟩ :=
    score_transitions_bounded.2 2 [[0, 1, 10]] m e
  obtain ⟨_, s, hs, h0, _, h100⟩ :=
    score_transitions_bounded.1 2 [[0, 1, 10]] c m tf [0, 1] 2 htrain hconv hmw hmt
      (by decide) (by decide)
  exact ⟨m, e, s, hs, h0, h100⟩

/-- C20: for every model whose `W` character frequencies are non-negative and sum
to 1, and every buffer whose first `n ≥ 1` symbols lie in `[0, W)`,
`score_frequencies` returns a score `s` with `0 ≤ s < 2`, and `s = 0` when the
unigram distribution of the buffer equals the model's on every symbol; every
classifier that `create_language_classifier` returns with a width `W > 0` is such a
model. -/
theorem score_frequencies_bounded :
    (∀ (m : LanguageClassifier) (buf : List Int) (n : Int),
      1 ≤ n → in_alphabet buf n m.alphabet_width →
      (m.character_frequencies.length : Int) = m.alphabet_width →
      (∀ i : Nat, (i : Int) < m.alphabet_width →
        0 ≤ entry m.character_frequencies (i : Int)) →
      ∑ i ∈ Finset.range m.alphabet_width.toNat,
        entry m.character_frequencies (i : Int) = 1 →
      ∃ s, score_frequencies m buf n = some s ∧ 0 ≤ s ∧ s < 2 ∧
        ((∀ i : Nat, (i : Int) < m.alphabet_width →
          entry m.character_frequencies (i : Int) =
            (occurrences buf n (i : Int) : ℚ) / (n : ℚ)) → s = 0)) ∧
    (∀ (W : Int) (lines : List (List Int)) (m : LanguageClassifier),
      0 < W → create_language_classifier lines W = some m →
      m.alphabet_width = W ∧
      (m.character_frequencies.length : Int) = W ∧
      (∀ i : Nat, (i : Int) < W → 0 ≤ entry m.character_frequencies (i : Int)) ∧
      ∑ i ∈ Finset.range W.toNat, entry m.character_frequencies (i : Int) = 1) := by
  constructor
  · intro m buf n hn hbuf hlen hnonneg hsum
    have hfirst := in_alphabet_getD hbuf 0 (by push_cast; omega)
    obtain ⟨w, hw⟩ : ∃ w : Nat, m.alphabet_width = (w : Int) :=
      ⟨m.alphabet_width.toNat, by omega⟩
    rw [hw, Int.toNat_natCast] at hsum
    have hbuf' : in_alphabet buf n (w : Int) := by rw [← hw]; exact hbuf
    obtain ⟨b0, b2⟩ := frequency_distance_bounds m buf n w hw hn hbuf'
      (fun i hi => hnonneg i (by omega)) hsum
    refine ⟨frequency_distance m buf n, score_frequencies_spec m buf n hn hbuf hlen,
      b0, b2, ?_⟩
    intro heq
    apply frequency_distance_eq_zero
    intro i hi
    rw [heq i hi]
    rfl
  · intro W lines m hW hm
    obtain ⟨n, rfl⟩ : ∃ n : Nat, W = (n : Int) := ⟨W.toNat, by omega⟩
    obtain ⟨h1, h2, h3, h4⟩ := trained_character_frequencies n (by omega) lines m hm
    refine ⟨h1, by rw [h2], fun i hi => h3 i (by omega), ?_⟩
    rw [Int.toNat_natCast]
    exact h4

/-- Witness of C20: the model trained on the line `0 1` followed by a line feed,
with the width 2, and the buffer `0 0 1`. -/
theorem score_frequencies_bounded_witness :
    ((1 : Int) ≤ 3 ∧ in_alphabet [0, 0, 1] 3 2 ∧ (0 : Int) < 2) ∧
    ∃ m, create_language_classifier [[0, 1, 10]] 2 = some m ∧
      ∃ s, score_frequencies m [0, 0, 1] 3 = some s ∧ 0 ≤ s ∧ s < 2 := by
  refine ⟨⟨by decide, by decide, by decide⟩, ?_⟩
  obtain ⟨m, e, _⟩ := create_language_classifier_spec 2 [[0, 1, 10]] (by decide)
    (by decide)
  obtain ⟨hw, hlen, hnonneg, hsum⟩ :=
    score_frequencies_bounded.2 2 [[0, 1, 10]] m (by decide) e
  obtain ⟨s, hs, h0, h2, _⟩ := score_frequencies_bounded.1 m [0, 0, 1] 3 (by decide)
    (by rw [hw]; decide) (by rw [hlen, hw]) (by rw [hw]; exact hnonneg)
    (by rw [hw]; exact hsum)
  exact ⟨m, e, s, hs, h0, h2⟩

end Classifier
